import Mathlib

/-!
Verification of the Fingerprint Catalog & Deduplication Engine
(music_dupes repository) against its specification.

Fingerprints are Python strings; we embed them as lists of characters.
All call sites in the sources build difflib.SequenceMatcher(None, a, b),
so the similarity embedding below models the isjunk = None configuration:
the junk set is empty and only the autojunk popularity heuristic filters b2j.
Python floats are modelled as exact rationals.
-/

set_option maxRecDepth 1000000

namespace MusicDupes

/-- A fingerprint: an opaque character sequence (Python str). -/
abbrev FP := List Char

/-- Placeholder character for out-of-range getD reads; every read modelled
here corresponds to an in-range Python index access. -/
def dummy : Char := ' '

namespace Difflib

/-- Append position j to the entry of character c, creating the entry if
absent: one step of the b2j construction in SequenceMatcher chain_b. -/
def addPos : List (Char × List Nat) → Char → Nat → List (Char × List Nat)
  | [], c, j => [(c, [j])]
  | (c', js) :: rest, c, j =>
    if c' = c then (c', js ++ [j]) :: rest else (c', js) :: addPos rest c j

/-- Walk b accumulating, for each character, the ascending list of its
positions (the b2j dict before junk filtering). -/
def buildMapAux : List (Char × List Nat) → Nat → FP → List (Char × List Nat)
  | m, _, [] => m
  | m, j, c :: rest => buildMapAux (addPos m c j) (j + 1) rest

/-- The raw b2j map of SequenceMatcher chain_b. -/
def buildMap (b : FP) : List (Char × List Nat) := buildMapAux [] 0 b

/-- Dict lookup with default empty list, as b2j.get(c, []). -/
def lookupMap : List (Char × List Nat) → Char → List Nat
  | [], _ => []
  | (c', js) :: rest, c => if c' = c then js else lookupMap rest c

/-- The autojunk filter of chain_b: when b has at least 200 elements,
characters occurring more than len(b) / 100 + 1 times are popular and
their entries are removed from b2j.  With isjunk = None there is no other
junk. -/
def chainB (b : FP) : List (Char × List Nat) :=
  let m := buildMap b
  if 200 ≤ b.length then
    m.filter (fun e => e.2.length ≤ b.length / 100 + 1)
  else m

/-- Lookup in the j2len dict with default 0, as j2len.get(j, 0). -/
def alookup : List (Nat × Nat) → Nat → Nat
  | [], _ => 0
  | (k, v) :: rest, j => if k = j then v else alookup rest j

/-- Inner loop of find_longest_match: scan the ascending occurrence list of
a[i] in b, skipping positions below blo (continue) and stopping at bhi
(break), building newj2len and updating the running best.  A Python lookup
of j2len.get(j-1, 0) at j = 0 probes key -1, which is never present, so it
is modelled as a direct 0. -/
def innerLoop (j2lOld : List (Nat × Nat)) (i blo bhi : Nat) :
    List Nat → (Nat × Nat × Nat) → List (Nat × Nat) →
    ((Nat × Nat × Nat) × List (Nat × Nat))
  | [], best, acc => (best, acc)
  | j :: js, best, acc =>
    if j < blo then innerLoop j2lOld i blo bhi js best acc
    else if bhi ≤ j then (best, acc)
    else
      let prev := if j = 0 then 0 else alookup j2lOld (j - 1)
      let k := prev + 1
      let best' := if best.2.2 < k then (i + 1 - k, j + 1 - k, k) else best
      innerLoop j2lOld i blo bhi js best' ((j, k) :: acc)

/-- Outer loop of find_longest_match over i in range(alo, ahi); fuel counts
the remaining iterations. -/
def outerLoop (a : FP) (bj : List (Char × List Nat)) (blo bhi : Nat) :
    Nat → Nat → (Nat × Nat × Nat) → List (Nat × Nat) → (Nat × Nat × Nat)
  | 0, _, best, _ => best
  | fuel + 1, i, best, j2l =>
    let res := innerLoop j2l i blo bhi (lookupMap bj (a.getD i dummy)) best []
    outerLoop a bj blo bhi fuel (i + 1) res.1 res.2

/-- Backward extension of the best block by equal elements; the junk test
not isbjunk(b[bestj-1]) is vacuously true because the junk set is empty
(isjunk = None), and the junk-extension loops after it never run.  The
loop decrements besti, so the recursion is structural in it. -/
def extendBack (a b : FP) (alo blo : Nat) : Nat → Nat → Nat → Nat × Nat × Nat
  | 0, bj, bs => (0, bj, bs)
  | bi + 1, bj, bs =>
    if alo < bi + 1 ∧ blo < bj ∧ a.getD bi dummy = b.getD (bj - 1) dummy then
      extendBack a b alo blo bi (bj - 1) (bs + 1)
    else (bi + 1, bj, bs)

/-- Forward extension of the best block by equal elements.  The loop runs
at most ahi - (besti + bestsize) times, which extendFwd passes as an exact
structural fuel: the guard besti + size < ahi fails exactly when the fuel
reaches zero, so the fueled recursion coincides with the Python loop. -/
def extendFwdAux (a b : FP) (ahi bhi bi bj : Nat) : Nat → Nat → Nat
  | 0, bs => bs
  | fuel + 1, bs =>
    if bi + bs < ahi ∧ bj + bs < bhi ∧
        a.getD (bi + bs) dummy = b.getD (bj + bs) dummy then
      extendFwdAux a b ahi bhi bi bj fuel (bs + 1)
    else bs

/-- Forward extension entry point. -/
def extendFwd (a b : FP) (ahi bhi bi bj bs : Nat) : Nat :=
  extendFwdAux a b ahi bhi bi bj (ahi - (bi + bs)) bs

/-- find_longest_match of SequenceMatcher with isjunk = None: dynamic
longest chain search followed by the two non-junk extension passes. -/
def findLongestMatch (a b : FP) (bj : List (Char × List Nat))
    (alo ahi blo bhi : Nat) : Nat × Nat × Nat :=
  let m := outerLoop a bj blo bhi (ahi - alo) alo (alo, blo, 0) []
  let e := extendBack a b alo blo m.1 m.2.1 m.2.2
  (e.1, e.2.1, extendFwd a b ahi bhi e.1 e.2.1 e.2.2)

/-- Termination weight of a pending window of get_matching_blocks. -/
def quadWeight (q : Nat × Nat × Nat × Nat) : Nat := 2 * (q.2.1 - q.1) + 1

/-- The queue loop of get_matching_blocks.  Python pops from the end of the
queue and appends the left then the right subwindow; the queue is modelled
head-first, so pushing right then left onto the head yields the same LIFO
processing order.  The unbounded Python while-loop is modelled with a fuel
counter so the recursion is structural; mbLoop_fuel_irrel below shows the
result does not depend on the fuel once it reaches the total queue weight,
which the entry point always supplies. -/
def mbLoop (a b : FP) (bj : List (Char × List Nat)) :
    Nat → List (Nat × Nat × Nat × Nat) → List (Nat × Nat × Nat) →
    List (Nat × Nat × Nat)
  | _, [], acc => acc
  | 0, _ :: _, acc => acc
  | fuel + 1, (alo, ahi, blo, bhi) :: rest, acc =>
    if (findLongestMatch a b bj alo ahi blo bhi).2.2 = 0 then
      mbLoop a b bj fuel rest acc
    else
      mbLoop a b bj fuel
        ((if (findLongestMatch a b bj alo ahi blo bhi).1 +
              (findLongestMatch a b bj alo ahi blo bhi).2.2 < ahi ∧
            (findLongestMatch a b bj alo ahi blo bhi).2.1 +
              (findLongestMatch a b bj alo ahi blo bhi).2.2 < bhi then
            [((findLongestMatch a b bj alo ahi blo bhi).1 +
                (findLongestMatch a b bj alo ahi blo bhi).2.2, ahi,
              (findLongestMatch a b bj alo ahi blo bhi).2.1 +
                (findLongestMatch a b bj alo ahi blo bhi).2.2, bhi)] else []) ++
         (if alo < (findLongestMatch a b bj alo ahi blo bhi).1 ∧
              blo < (findLongestMatch a b bj alo ahi blo bhi).2.1 then
            [(alo, (findLongestMatch a b bj alo ahi blo bhi).1, blo,
              (findLongestMatch a b bj alo ahi blo bhi).2.1)] else []) ++
         rest)
        (((findLongestMatch a b bj alo ahi blo bhi).1,
          (findLongestMatch a b bj alo ahi blo bhi).2.1,
          (findLongestMatch a b bj alo ahi blo bhi).2.2) :: acc)

/-- Raw matching blocks, in queue-processing order (reversed accumulation;
a subsequent sort makes the order canonical, as in difflib). -/
def getMatchingBlocksRaw (a b : FP) : List (Nat × Nat × Nat) :=
  mbLoop a b (chainB b) (2 * a.length + 1) [(0, a.length, 0, b.length)] []

/-- Lexicographic comparison of triples, as Python tuple sorting. -/
def tripleLE (x y : Nat × Nat × Nat) : Bool :=
  decide (x.1 < y.1 ∨ (x.1 = y.1 ∧ (x.2.1 < y.2.1 ∨
    (x.2.1 = y.2.1 ∧ x.2.2 ≤ y.2.2))))

/-- Insert into a tripleLE-sorted list. -/
def insertTriple (x : Nat × Nat × Nat) : List (Nat × Nat × Nat) →
    List (Nat × Nat × Nat)
  | [] => [x]
  | y :: ys => if tripleLE x y then x :: y :: ys else y :: insertTriple x ys

/-- matching_blocks.sort(): the raw blocks carry pairwise distinct first
components (they come from disjoint windows), so insertion sort by the
lexicographic tuple order produces exactly the Python sorted list. -/
def sortTriples : List (Nat × Nat × Nat) → List (Nat × Nat × Nat)
  | [] => []
  | x :: xs => insertTriple x (sortTriples xs)

/-- The second phase of get_matching_blocks: collapse adjacent blocks,
starting from the zero accumulator. -/
def mergeAdjacent : List (Nat × Nat × Nat) → Nat × Nat × Nat →
    List (Nat × Nat × Nat)
  | [], (i1, j1, k1) => if k1 ≠ 0 then [(i1, j1, k1)] else []
  | (i2, j2, k2) :: rest, (i1, j1, k1) =>
    if i1 + k1 = i2 ∧ j1 + k1 = j2 then mergeAdjacent rest (i1, j1, k1 + k2)
    else if k1 ≠ 0 then (i1, j1, k1) :: mergeAdjacent rest (i2, j2, k2)
    else mergeAdjacent rest (i2, j2, k2)

/-- get_matching_blocks: sorted, merged, with the terminating sentinel. -/
def getMatchingBlocks (a b : FP) : List (Nat × Nat × Nat) :=
  mergeAdjacent (sortTriples (getMatchingBlocksRaw a b)) (0, 0, 0) ++
    [(a.length, b.length, 0)]

/-- Total number of matched elements. -/
def matchesTotal (a b : FP) : Nat :=
  ((getMatchingBlocks a b).map (fun t => t.2.2)).sum

/-- SequenceMatcher.ratio with isjunk = None: 2 * M / (len(a) + len(b)),
and 1.0 for two empty sequences. -/
def ratio (a b : FP) : ℚ :=
  if a.length + b.length = 0 then 1
  else 2 * (matchesTotal a b : ℚ) / (a.length + b.length : ℚ)

/-- Occurrence positions of a character, offset by j0. -/
def posAux : FP → Nat → Char → List Nat
  | [], _, _ => []
  | x :: xs, j0, c => (if x = c then [j0] else []) ++ posAux xs (j0 + 1) c

/-- Popularity, as decided by the autojunk heuristic of chain_b. -/
def isPop (b : FP) (c : Char) : Prop :=
  200 ≤ b.length ∧ b.length / 100 + 1 < (posAux b 0 c).length

instance (b : FP) (c : Char) : Decidable (isPop b c) := by
  unfold isPop; infer_instance

/-- One matching step of the chain ending at (i, j) on s against itself:
position j holds the same character as position i and that character
survives the autojunk filter. -/
def rcond (s : FP) (i j : Nat) : Prop :=
  j < s.length ∧ s.getD j dummy = s.getD i dummy ∧
    ¬ isPop s (s.getD i dummy)

instance (s : FP) (i j : Nat) : Decidable (rcond s i j) := by
  unfold rcond; infer_instance

/-- Length of the run of matching non-popular pairs ending at (i, j). -/
def chainD (s : FP) : Nat → Nat → Nat
  | 0, j => if rcond s 0 j then 1 else 0
  | i + 1, 0 => if rcond s (i + 1) 0 then 1 else 0
  | i + 1, j + 1 => if rcond s (i + 1) (j + 1) then chainD s i j + 1 else 0

end Difflib

/-- Fingerprint similarity as computed by every source variant:
difflib.SequenceMatcher(None, fingerprint, candidate).ratio(). -/
def similarity (a b : FP) : ℚ := Difflib.ratio a b

/-- Quality record as carried in the quality and match_record dicts of the
A06/A11 variants: the fields read by the deduplication decision and the
interactive prompt. -/
structure QualityRec where
  score : ℚ
  format : String
  size : Nat
deriving DecidableEq

/-- Split a fingerprint into consecutive chunks of the given size; the
Python slice loop is modelled with an exact structural fuel (the slice
loop runs at most len(fp) times). -/
def chunksAux (size : Nat) : Nat → FP → List FP
  | _, [] => []
  | 0, _ :: _ => []
  | fuel + 1, x :: xs =>
    (x :: xs).take size :: chunksAux size fuel ((x :: xs).drop size)

namespace A06

/-- Tuning constants of the A06/A11 MusicLibraryManager.  The Python float
thresholds 0.98 and 0.85 are modelled as exact rationals. -/
def BLOCK_SIZE : Nat := 16

def SIMILARITY_AUTO : ℚ := 98 / 100

def SIMILARITY_ASK : ℚ := 85 / 100

/-- get_blocks: fingerprint[i:i+16] slices, at most 16 of them. -/
def getBlocks (fp : FP) : List FP :=
  (chunksAux BLOCK_SIZE fp.length fp).take 16

/-- One row of the files table, restricted to the columns the local
deduplication reads. -/
structure FileRow where
  path : String
  fingerprint : FP
  qualityScore : ℚ
  format : String
  fileSize : Nat
deriving DecidableEq

/-- The fingerprint_index table: (block, path) rows. -/
abbrev IndexTable := List (FP × String)

/-- update_index: delete all index rows of the path, then insert the
blocks of the new fingerprint. -/
def updateIndex (idx : IndexTable) (path : String) (fp : FP) : IndexTable :=
  idx.filter (fun e => e.2 ≠ path) ++ (getBlocks fp).map (fun b => (b, path))

/-- First-occurrence de-duplication with a seen accumulator, modelling
SELECT DISTINCT over the scan order. -/
def dedupAux (seen : List String) : List String → List String
  | [] => []
  | x :: xs =>
    if x ∈ seen then dedupAux seen xs else x :: dedupAux (x :: seen) xs

def dedupFirst (l : List String) : List String := dedupAux [] l

/-- SELECT DISTINCT path FROM fingerprint_index WHERE block IN (blocks). -/
def lookupIndex (idx : IndexTable) (blocks : List FP) : List String :=
  dedupFirst ((idx.filter (fun e => e.1 ∈ blocks)).map (fun e => e.2))

/-- SELECT fingerprint, quality_score, format, file_size FROM files WHERE
path = ? followed by fetchone. -/
def getFileRecord (files : List FileRow) (p : String) : Option FileRow :=
  files.find? (fun r => r.path = p)

/-- One iteration of the fuzzy-match loop of find_local_fuzzy_match:
missing catalog rows are skipped, and the best is replaced only on a
strictly larger ratio, so the first-seen candidate wins ties. -/
def fuzzyStep (files : List FileRow) (fp : FP)
    (best : Option String × ℚ × Option QualityRec) (candPath : String) :
    Option String × ℚ × Option QualityRec :=
  match getFileRecord files candPath with
  | none => best
  | some row =>
    if best.2.1 < similarity fp row.fingerprint then
      (some candPath, similarity fp row.fingerprint,
        some ⟨row.qualityScore, row.format, row.fileSize⟩)
    else best

/-- find_local_fuzzy_match: blocking-index candidate search plus the
difflib comparison loop.  Returns (best_match_path, match_score,
match_record); the empty block list returns early, before any index
query. -/
def findLocalFuzzyMatch (files : List FileRow) (idx : IndexTable) (fp : FP) :
    Option String × ℚ × Option QualityRec :=
  if getBlocks fp = [] then (none, 0, none)
  else (lookupIndex idx (getBlocks fp)).foldl (fuzzyStep files fp) (none, 0, none)

end A06

/-- A 256-character query fingerprint: eight ab pairs then 240 times c. -/
def cexA : FP := (List.replicate 8 ['a', 'b']).flatten ++ List.replicate 240 'c'

/-- A 256-character catalog fingerprint: 240 times z then eight ab pairs.
It shares its last 16-character block with the first block of cexA, so
the blocking index pairs the two, yet autojunk discards every character
of it (each occurs more than 256 / 100 + 1 times), leaving ratio 0. -/
def cexB : FP := List.replicate 240 'z' ++ (List.replicate 8 ['a', 'b']).flatten

namespace A06

/-- Technical attributes mutagen reports for a readable file.  Optional
fields model the getattr probing of the source: bits_per_sample,
sample_rate and bitrate may be absent, with source-side defaults 16,
44100 and 0; hasattr(info, bits_per_sample) is isSome. -/
structure AudioInfo where
  ext : String
  bitsPerSample : Option Nat
  sampleRate : Option Nat
  bitrate : Option Nat
  fileSize : Nat
deriving DecidableEq

/-- Extensions counted as lossless by calculate_quality. -/
def LOSSLESS_EXTS : List String := [".flac", ".wav", ".m4a"]

/-- The lossless test of calculate_quality: extension in the list and the
info object exposes bits_per_sample. -/
def isLossless (a : AudioInfo) : Prop :=
  a.ext ∈ LOSSLESS_EXTS ∧ a.bitsPerSample.isSome = true

instance (a : AudioInfo) : Decidable (isLossless a) := by
  unfold isLossless; infer_instance

/-- The summed quality score of calculate_quality, in exact arithmetic:
format band (10^15), bit depth (10^12 per bit), raw file size, and the
fractional sample-rate and bitrate extras. -/
def calculateQualityScore (a : AudioInfo) : ℚ :=
  (if isLossless a then 2 * 10 ^ 15 else 1 * 10 ^ 15)
    + (a.bitsPerSample.getD 16 : ℚ) * 10 ^ 12
    + (a.fileSize : ℚ)
    + ((a.sampleRate.getD 44100 : ℚ) / 10 ^ 6
        + (a.bitrate.getD 0 : ℚ) / 10 ^ 9)

/-- The coarse format band: 2 for lossless, 1 for lossy. -/
def formatClass (a : AudioInfo) : Nat := if isLossless a then 2 else 1

/-- Effective bit depth after the getattr default. -/
def effBits (a : AudioInfo) : Nat := a.bitsPerSample.getD 16

/-- Effective sample rate after the getattr default. -/
def effSampleRate (a : AudioInfo) : Nat := a.sampleRate.getD 44100

/-- Effective bitrate after the getattr default. -/
def effBitrate (a : AudioInfo) : Nat := a.bitrate.getD 0

/-- The sub-unit tail of the score: sample rate over 10^6 plus bitrate
over 10^9. -/
def extras (a : AudioInfo) : ℚ :=
  (effSampleRate a : ℚ) / 10 ^ 6 + (effBitrate a : ℚ) / 10 ^ 9

/-- Realistic attribute bounds under which the upper score ranks swamp the
lower ones: bit depth at most 500, file size under 10^12 bytes, sample
rate under 5 * 10^5 Hz, bitrate under 5 * 10^8 bits per second. -/
def BoundedInfo (a : AudioInfo) : Prop :=
  effBits a ≤ 500 ∧ a.fileSize < 10 ^ 12 ∧
    effSampleRate a < 5 * 10 ^ 5 ∧ effBitrate a < 5 * 10 ^ 8

instance (a : AudioInfo) : Decidable (BoundedInfo a) := by
  unfold BoundedInfo; infer_instance

/-- The deduplication decision of the A06 variant. -/
inductive DedupDecision
  | keepNew
  | keepOld
  | skip
deriving DecidableEq

/-- Observable outcome of handle_local_deduplication: whether processing
of the new file continues, how many interactive prompts were made, and
the resolved decision (none when no significant match was found). -/
structure DedupOutcome where
  proceed : Bool
  promptInvocations : Nat
  decision : Option DedupDecision
deriving DecidableEq

/-- The decision core of handle_local_deduplication.  The matcher result
is a path and match record together (the source guarantees the record is
present exactly when the path is).  The interactive prompt is a
collaborator; its eventual answer enters as promptResult and is consulted
only in the ask band. -/
def handleLocalDeduplication (found : Option (String × QualityRec))
    (matchScore : ℚ) (quality : QualityRec) (promptResult : DedupDecision) :
    DedupOutcome :=
  match found with
  | none => ⟨true, 0, none⟩
  | some (_, record) =>
    if matchScore < SIMILARITY_ASK then ⟨true, 0, none⟩
    else if SIMILARITY_AUTO ≤ matchScore then
      if record.score < quality.score then ⟨true, 0, some .keepNew⟩
      else ⟨false, 0, some .keepOld⟩
    else
      match promptResult with
      | .keepNew => ⟨true, 1, some .keepNew⟩
      | .keepOld => ⟨false, 1, some .keepOld⟩
      | .skip => ⟨false, 1, some .skip⟩

/-- str.lower of Python, applied characterwise to the underlying character
list (the engine only compares against ASCII answers). -/
def lowerStr (s : String) : String := ⟨s.data.map Char.toLower⟩

/-- prompt_dedup_resolution of A06: the terminal loop re-asks until one of
the accepted lowercased answers n, o, s arrives; an input trace that never
contains one leaves the loop waiting, modelled as none. -/
def promptDedupResolution : List String → Option DedupDecision
  | [] => none
  | input :: rest =>
    if lowerStr input = "n" then some .keepNew
    else if lowerStr input = "o" then some .keepOld
    else if lowerStr input = "s" then some .skip
    else promptDedupResolution rest

end A06

namespace Refactored

/-- A pathlib.Path, at the granularity this model needs: a directory and a
file name.  Path.with_name keeps the directory and replaces the name. -/
structure PathT where
  dir : String
  name : String
deriving DecidableEq

/-- The stats dict of get_audio_stats (refactored variant). -/
structure Stats where
  score : Int
  format : String
  bitrate : Nat
  sampleRate : Nat
  bitsPerSample : Nat
  fileSize : Nat
  mtime : ℚ
deriving DecidableEq

/-- One row of the files table of the refactored variant. -/
structure FileRow where
  path : PathT
  fingerprint : Option FP
  score : Int
  format : String
  bitrate : Nat
  sampleRate : Nat
  bitsPerSample : Nat
  fileSize : Nat
  lastMod : ℚ
  processed : Bool
  isDuplicate : Bool
deriving DecidableEq

/-- Filesystem plus the two catalog tables of the refactored variant. -/
structure RState where
  fs : List PathT
  files : List FileRow
  index : List (FP × PathT)

/-- Index of the last dot in a name, for the stem and suffix split of
pathlib (a leading dot starts a hidden name, not a suffix). -/
def lastDot (cs : List Char) : Option Nat :=
  (List.range cs.length).foldl
    (fun acc i => if cs.getD i dummy = '.' then some i else acc) none

/-- Path.stem and Path.suffix. -/
def splitExt (n : String) : String × String :=
  match lastDot n.toList with
  | none => (n, "")
  | some 0 => (n, "")
  | some i => (String.mk (n.toList.take i), String.mk (n.toList.drop i))

/-- The 02d-padded counter of get_safe_path. -/
def pad2 (c : Nat) : String :=
  if c < 10 then "0" ++ toString c else toString c

/-- base.with_name of the stem_NN + suffix collision name. -/
def counterName (base : PathT) (c : Nat) : PathT :=
  ⟨base.dir, (splitExt base.name).1 ++ "_" ++ pad2 c ++ (splitExt base.name).2⟩

/-- The collision loop of get_safe_path, fueled: at most fs.length + 1
distinct candidate names are ever probed before a free one is found, so
the fuel the entry point passes is never exhausted. -/
def getSafePathAux (fs : List PathT) (base : PathT) : Nat → PathT → Nat → PathT
  | 0, cur, _ => cur
  | fuel + 1, cur, c =>
    if cur ∈ fs then getSafePathAux fs base fuel (counterName base c) (c + 1)
    else cur

/-- get_safe_path: append _01, _02, ... while the target exists. -/
def getSafePath (fs : List PathT) (p : PathT) : PathT :=
  getSafePathAux fs p (fs.length + 1) p 1

/-- move_to_dups of the refactored variant: relocate the file into the
duplicates folder under a collision-safe name, drop its blocking-index
rows, and write its catalog row with processed = 1 and is_duplicate = 1
(when the stats dict is passed) or redirect the existing row (when it is
not); a dry run, or a vanished source file, leaves everything unchanged. -/
def moveToDups (dupFolder : String) (dryRun : Bool) (st : RState)
    (filePath : PathT) (fp : Option FP) (stats : Option Stats) : RState :=
  let target := getSafePath st.fs ⟨dupFolder, filePath.name⟩
  if ¬ dryRun ∧ filePath ∈ st.fs then
    { fs := target :: st.fs.erase filePath
      files :=
        match stats with
        | some stt =>
          st.files.filter (fun r => r.path ≠ target) ++
            [{ path := target, fingerprint := fp, score := stt.score,
               format := stt.format, bitrate := stt.bitrate,
               sampleRate := stt.sampleRate, bitsPerSample := stt.bitsPerSample,
               fileSize := stt.fileSize, lastMod := stt.mtime,
               processed := true, isDuplicate := true }]
        | none =>
          st.files.map (fun r =>
            if r.path = filePath then
              { r with path := target, isDuplicate := true }
            else r)
      index := st.index.filter (fun e => e.2 ≠ filePath) }
  else st

end Refactored

namespace A11

/-- One row of the files table of the A11 variant. -/
structure FileRow where
  path : String
  fingerprint : Option FP
  acoustidId : Option String
  title : Option String
  trackNo : Option Nat
  discNo : Option Nat
  format : Option String
  fileSize : Option Nat
  qualityScore : Option ℚ
  albumId : Option String
  processed : Bool
deriving DecidableEq

/-- One row of the albums table. -/
structure AlbumRow where
  releaseId : String
  albumTitle : String
  albumArtist : String
  releaseDate : String
  country : String
deriving DecidableEq

/-- The five persistent tables of the A11 variant; known_fingerprints is
the fingerprint-history table, keyed by (fingerprint, acoustid_id). -/
structure AState where
  albums : List AlbumRow
  files : List FileRow
  knownFingerprints : List (FP × String)
  knownBlocks : List (FP × String)
  fingerprintIndex : List (FP × String)

/-- get_blocks of the A11 variant, identical to the A06 one. -/
def getBlocks (fp : FP) : List FP := A06.getBlocks fp

/-- The per-path deletion loop of prune_database over a snapshot of the
catalog paths: a missing path deletes both the files row and its
fingerprint_index rows. -/
def pruneLoop (existsFn : String → Bool) : List String → AState → AState
  | [], st => st
  | p :: rest, st =>
    if existsFn p then pruneLoop existsFn rest st
    else
      pruneLoop existsFn rest
        { st with
          files := st.files.filter (fun r => r.path ≠ p),
          fingerprintIndex := st.fingerprintIndex.filter (fun e => e.2 ≠ p) }

/-- prune_database: a hard guard skips the prune, with an error logged
(the returned flag), when the music folder itself does not exist. -/
def pruneDatabase (existsFn : String → Bool) (musicFolder : String)
    (st : AState) : AState × Bool :=
  if existsFn musicFolder then
    (pruneLoop existsFn (st.files.map (fun r => r.path)) st, false)
  else (st, true)

/-- update_fingerprint_cache: INSERT OR IGNORE the history pair, and bulk
insert the blocks only when this acoustid has none yet. -/
def updateFingerprintCache (st : AState) (acoustidId : String) (fp : FP) :
    AState :=
  { st with
    knownFingerprints :=
      if (fp, acoustidId) ∈ st.knownFingerprints then st.knownFingerprints
      else st.knownFingerprints ++ [(fp, acoustidId)],
    knownBlocks :=
      if st.knownBlocks.any (fun e => e.2 = acoustidId) then st.knownBlocks
      else st.knownBlocks ++ (getBlocks fp).map (fun b => (b, acoustidId)) }

/-- update_index of A11: delete-then-reinsert the path's block rows. -/
def updateIndex (st : AState) (path : String) (fp : FP) : AState :=
  { st with
    fingerprintIndex :=
      st.fingerprintIndex.filter (fun e => e.2 ≠ path) ++
        (getBlocks fp).map (fun b => (b, path)) }

/-- The database effects of handle_album_deduplication: an existing
processed row for the same acoustid and album either loses (deleted, new
file proceeds) or wins (the new file is recorded as processed when it is
being disposed of). -/
def handleAlbumDedup (dryRun : Bool) (st : AState) (path : String)
    (acoustidId releaseId : String) (quality : QualityRec)
    (disposeSource : Bool) : AState × Bool :=
  match st.files.find? (fun r =>
      r.acoustidId = some acoustidId ∧ r.albumId = some releaseId ∧
        r.processed) with
  | none => (st, true)
  | some existing =>
    if existing.qualityScore.getD 0 < quality.score then
      if ¬ dryRun then
        ({ st with files := st.files.filter (fun r => r.path ≠ existing.path) },
          true)
      else (st, true)
    else
      if disposeSource ∧ ¬ dryRun then
        ({ st with
          files :=
            st.files.filter (fun r => r.path ≠ path) ++
              [{ path := path, fingerprint := none,
                 acoustidId := some acoustidId, title := none,
                 trackNo := none, discNo := none,
                 format := some quality.format,
                 fileSize := some quality.size,
                 qualityScore := some quality.score, albumId := none,
                 processed := true }] }, false)
      else (st, false)

/-- The catalog writes of the success path of process_library: INSERT OR
IGNORE the album, INSERT OR REPLACE the files row, then update_index. -/
def catalogInsert (st : AState) (album : AlbumRow) (row : FileRow) (fp : FP) :
    AState :=
  let st1 :=
    { st with
      albums :=
        if st.albums.any (fun a => a.releaseId = album.releaseId) then st.albums
        else st.albums ++ [album],
      files := st.files.filter (fun r => r.path ≠ row.path) ++ [row] }
  updateIndex st1 row.path fp

/-- The database-mutating operations of the A11 engine. -/
inductive EngineOp
  | prune (existsFn : String → Bool) (musicFolder : String)
  | cacheUpdate (acoustidId : String) (fp : FP)
  | indexUpdate (path : String) (fp : FP)
  | albumDedup (dryRun : Bool) (path acoustidId releaseId : String)
      (quality : QualityRec) (disposeSource : Bool)
  | insertCatalog (album : AlbumRow) (row : FileRow) (fp : FP)

/-- State transition of one engine operation. -/
def applyOp : EngineOp → AState → AState
  | .prune existsFn musicFolder, st => (pruneDatabase existsFn musicFolder st).1
  | .cacheUpdate acoustidId fp, st => updateFingerprintCache st acoustidId fp
  | .indexUpdate path fp, st => updateIndex st path fp
  | .albumDedup dryRun path aid rid q dispose, st =>
      (handleAlbumDedup dryRun st path aid rid q dispose).1
  | .insertCatalog album row fp, st => catalogInsert st album row fp

end A11

end MusicDupes

namespace MusicDupes

namespace Difflib

/-- alookup either misses (0) or returns the value of an entry. -/
theorem alookup_cases (l : List (Nat × Nat)) (j : Nat) :
    alookup l j = 0 ∨ ∃ e ∈ l, e.1 = j ∧ alookup l j = e.2 := by
  induction l with
  | nil => exact Or.inl rfl
  | cons e rest ih =>
    by_cases h : e.1 = j
    · exact Or.inr ⟨e, List.mem_cons_self _ _, h, by simp [alookup, h]⟩
    · rcases ih with h0 | ⟨e', he', hk, hv⟩
      · exact Or.inl (by simp [alookup, h, h0])
      · exact Or.inr ⟨e', List.mem_cons_of_mem _ he', hk, by simp [alookup, h, hv]⟩

/-- Range invariant carried through the inner loop of find_longest_match:
the best block stays inside the window and j2len values are bounded by the
progress of both cursors. -/
theorem innerLoop_inv (alo i blo bhi : Nat) (j2lOld : List (Nat × Nat))
    (halo : alo ≤ i)
    (Hold : ∀ e ∈ j2lOld, e.2 + alo ≤ i ∧ e.2 + blo ≤ e.1 + 1) :
    ∀ (L : List Nat) (best : Nat × Nat × Nat) (acc : List (Nat × Nat)),
      alo ≤ best.1 → blo ≤ best.2.1 →
      (best.2.2 ≠ 0 → best.1 + best.2.2 ≤ i + 1 ∧ best.2.1 + best.2.2 ≤ bhi) →
      (best.2.2 = 0 → best.1 = alo ∧ best.2.1 = blo) →
      (∀ e ∈ acc, e.2 + alo ≤ i + 1 ∧ e.2 + blo ≤ e.1 + 1) →
      alo ≤ (innerLoop j2lOld i blo bhi L best acc).1.1 ∧
      blo ≤ (innerLoop j2lOld i blo bhi L best acc).1.2.1 ∧
      ((innerLoop j2lOld i blo bhi L best acc).1.2.2 ≠ 0 →
        (innerLoop j2lOld i blo bhi L best acc).1.1 +
          (innerLoop j2lOld i blo bhi L best acc).1.2.2 ≤ i + 1 ∧
        (innerLoop j2lOld i blo bhi L best acc).1.2.1 +
          (innerLoop j2lOld i blo bhi L best acc).1.2.2 ≤ bhi) ∧
      ((innerLoop j2lOld i blo bhi L best acc).1.2.2 = 0 →
        (innerLoop j2lOld i blo bhi L best acc).1.1 = alo ∧
        (innerLoop j2lOld i blo bhi L best acc).1.2.1 = blo) ∧
      (∀ e ∈ (innerLoop j2lOld i blo bhi L best acc).2,
        e.2 + alo ≤ i + 1 ∧ e.2 + blo ≤ e.1 + 1) := by
  intro L
  induction L with
  | nil =>
    intro best acc h1 h2 h3 h4 h5
    exact ⟨h1, h2, h3, h4, h5⟩
  | cons j js ih =>
    intro best acc h1 h2 h3 h4 h5
    by_cases hjlo : j < blo
    · simpa [innerLoop, hjlo] using ih best acc h1 h2 h3 h4 h5
    · by_cases hjhi : bhi ≤ j
      · simp only [innerLoop, if_neg hjlo, if_pos hjhi]
        exact ⟨h1, h2, h3, h4, h5⟩
      · have hblo : blo ≤ j := Nat.le_of_not_lt hjlo
        have hbhi : j < bhi := Nat.lt_of_not_le hjhi
        -- bounds on the freshly computed chain value k
        set prev := if j = 0 then 0 else alookup j2lOld (j - 1) with hprev
        have hp1 : prev + alo ≤ i := by
          by_cases hj0 : j = 0
          · simpa [hprev, hj0] using halo
          · rcases alookup_cases j2lOld (j - 1) with h0 | ⟨e, he, _, hv⟩
            · simp [hprev, hj0, h0, halo]
            · have := (Hold e he).1
              simp only [hprev, if_neg hj0, hv]
              omega
        have hp2 : prev + blo ≤ j := by
          by_cases hj0 : j = 0
          · simp [hprev, hj0]; omega
          · rcases alookup_cases j2lOld (j - 1) with h0 | ⟨e, he, hk, hv⟩
            · simp [hprev, hj0, h0, hblo]
            · have := (Hold e he).2
              simp only [hprev, if_neg hj0, hv]
              omega
        simp only [innerLoop, if_neg hjlo, if_neg hjhi]
        by_cases hup : best.2.2 < prev + 1
        · simp only [if_pos hup]
          refine ih _ _ ?_ ?_ ?_ ?_ ?_
          · simp; omega
          · simp; omega
          · intro _
            constructor
            · simp; omega
            · simp; omega
          · intro h0
            exact absurd h0 (by simp)
          · intro e he
            rcases List.mem_cons.1 he with rfl | he'
            · constructor <;> simp <;> omega
            · exact h5 e he'
        · simp only [if_neg hup]
          refine ih _ _ h1 h2 h3 h4 ?_
          intro e he
          rcases List.mem_cons.1 he with rfl | he'
          · constructor <;> simp <;> omega
          · exact h5 e he'

/-- Range invariant for the outer loop of find_longest_match. -/
theorem outerLoop_inv (a : FP) (bj : List (Char × List Nat)) (alo blo bhi : Nat) :
    ∀ (fuel i : Nat) (best : Nat × Nat × Nat) (j2l : List (Nat × Nat)),
      alo ≤ i →
      alo ≤ best.1 → blo ≤ best.2.1 →
      (best.2.2 ≠ 0 → best.1 + best.2.2 ≤ i ∧ best.2.1 + best.2.2 ≤ bhi) →
      (best.2.2 = 0 → best.1 = alo ∧ best.2.1 = blo) →
      (∀ e ∈ j2l, e.2 + alo ≤ i ∧ e.2 + blo ≤ e.1 + 1) →
      alo ≤ (outerLoop a bj blo bhi fuel i best j2l).1 ∧
      blo ≤ (outerLoop a bj blo bhi fuel i best j2l).2.1 ∧
      ((outerLoop a bj blo bhi fuel i best j2l).2.2 ≠ 0 →
        (outerLoop a bj blo bhi fuel i best j2l).1 +
          (outerLoop a bj blo bhi fuel i best j2l).2.2 ≤ i + fuel ∧
        (outerLoop a bj blo bhi fuel i best j2l).2.1 +
          (outerLoop a bj blo bhi fuel i best j2l).2.2 ≤ bhi) ∧
      ((outerLoop a bj blo bhi fuel i best j2l).2.2 = 0 →
        (outerLoop a bj blo bhi fuel i best j2l).1 = alo ∧
        (outerLoop a bj blo bhi fuel i best j2l).2.1 = blo) := by
  intro fuel
  induction fuel with
  | zero =>
    intro i best j2l _ h1 h2 h3 h4 _
    exact ⟨h1, h2, fun h => by simpa using h3 h, h4⟩
  | succ fuel ih =>
    intro i best j2l hi h1 h2 h3 h4 h5
    have hinner := innerLoop_inv alo i blo bhi j2l hi h5
      (lookupMap bj (a.getD i dummy)) best [] h1 h2
      (fun h => (h3 h).imp (fun hb => Nat.le_succ_of_le hb) id) h4
      (by intro e he; simp at he)
    simp only [outerLoop]
    obtain ⟨g1, g2, g3, g4, g5⟩ := hinner
    have := ih (i + 1) _ _ (Nat.le_succ_of_le hi) g1 g2 g3 g4 g5
    refine ⟨this.1, this.2.1, ?_, this.2.2.2⟩
    intro h
    have := this.2.2.1 h
    omega

/-- extendBack preserves both block ends' sums and never crosses alo, blo. -/
theorem extendBack_spec (a b : FP) (alo blo : Nat) :
    ∀ bi bj bs,
      (extendBack a b alo blo bi bj bs).1 + (extendBack a b alo blo bi bj bs).2.2
          = bi + bs ∧
      (extendBack a b alo blo bi bj bs).2.1 + (extendBack a b alo blo bi bj bs).2.2
          = bj + bs ∧
      (alo ≤ bi → alo ≤ (extendBack a b alo blo bi bj bs).1) ∧
      (blo ≤ bj → blo ≤ (extendBack a b alo blo bi bj bs).2.1) ∧
      bs ≤ (extendBack a b alo blo bi bj bs).2.2 := by
  intro bi
  induction bi with
  | zero =>
    intro bj bs
    exact ⟨rfl, rfl, fun h => h, fun h => h, Nat.le_refl bs⟩
  | succ bi ih =>
    intro bj bs
    rw [extendBack]
    by_cases h : alo < bi + 1 ∧ blo < bj ∧ a.getD bi dummy = b.getD (bj - 1) dummy
    · rw [if_pos h]
      obtain ⟨h1, h2, _⟩ := h
      obtain ⟨e1, e2, e3, e4, e5⟩ := ih (bj - 1) (bs + 1)
      refine ⟨by omega, by omega, fun _ => e3 (by omega), fun _ => e4 (by omega),
        by omega⟩
    · rw [if_neg h]
      exact ⟨rfl, rfl, fun h => h, fun h => h, Nat.le_refl bs⟩

/-- extendFwd either leaves the size unchanged or keeps the block inside the
window. -/
theorem extendFwd_spec (a b : FP) (ahi bhi bi bj : Nat) :
    ∀ bs, bs ≤ extendFwd a b ahi bhi bi bj bs ∧
      (extendFwd a b ahi bhi bi bj bs = bs ∨
        (bi + extendFwd a b ahi bhi bi bj bs ≤ ahi ∧
         bj + extendFwd a b ahi bhi bi bj bs ≤ bhi)) := by
  have aux : ∀ (fuel bs : Nat),
      bs ≤ extendFwdAux a b ahi bhi bi bj fuel bs ∧
      (extendFwdAux a b ahi bhi bi bj fuel bs = bs ∨
        (bi + extendFwdAux a b ahi bhi bi bj fuel bs ≤ ahi ∧
         bj + extendFwdAux a b ahi bhi bi bj fuel bs ≤ bhi)) := by
    intro fuel
    induction fuel with
    | zero => exact fun bs => ⟨Nat.le_refl bs, Or.inl rfl⟩
    | succ f ih =>
      intro bs
      rw [extendFwdAux]
      by_cases h : bi + bs < ahi ∧ bj + bs < bhi ∧
          a.getD (bi + bs) dummy = b.getD (bj + bs) dummy
      · rw [if_pos h]
        obtain ⟨h1, h2, _⟩ := h
        obtain ⟨e1, e2⟩ := ih (bs + 1)
        refine ⟨by omega, Or.inr ?_⟩
        rcases e2 with he | he
        · constructor <;> omega
        · exact he
      · rw [if_neg h]
        exact ⟨Nat.le_refl bs, Or.inl rfl⟩
  exact fun bs => aux (ahi - (bi + bs)) bs

/-- When find_longest_match reports a nonzero size, the block lies inside
the requested window. -/
theorem findLongestMatch_bounds (a b : FP) (bj : List (Char × List Nat))
    (alo ahi blo bhi : Nat) :
    (findLongestMatch a b bj alo ahi blo bhi).2.2 ≠ 0 →
      alo ≤ (findLongestMatch a b bj alo ahi blo bhi).1 ∧
      blo ≤ (findLongestMatch a b bj alo ahi blo bhi).2.1 ∧
      (findLongestMatch a b bj alo ahi blo bhi).1 +
        (findLongestMatch a b bj alo ahi blo bhi).2.2 ≤ ahi ∧
      (findLongestMatch a b bj alo ahi blo bhi).2.1 +
        (findLongestMatch a b bj alo ahi blo bhi).2.2 ≤ bhi := by
  intro hk
  have hmain := outerLoop_inv a bj alo blo bhi (ahi - alo) alo (alo, blo, 0) []
    (Nat.le_refl alo) (Nat.le_refl alo) (Nat.le_refl blo)
    (by intro h; simp at h) (fun _ => ⟨rfl, rfl⟩) (by intro e he; simp at he)
  set m := outerLoop a bj blo bhi (ahi - alo) alo (alo, blo, 0) [] with hm
  obtain ⟨m1, m2, m3, m4⟩ := hmain
  obtain ⟨b1, b2, b3, b4, b5⟩ := extendBack_spec a b alo blo m.1 m.2.1 m.2.2
  set e := extendBack a b alo blo m.1 m.2.1 m.2.2 with he
  obtain ⟨f1, f2⟩ := extendFwd_spec a b ahi bhi e.1 e.2.1 e.2.2
  set s := extendFwd a b ahi bhi e.1 e.2.1 e.2.2 with hs
  have hres : findLongestMatch a b bj alo ahi blo bhi = (e.1, e.2.1, s) := rfl
  rw [hres] at hk ⊢
  simp only at hk ⊢
  rcases f2 with hf | hf
  · -- no forward extension: the block is the extendBack result
    rw [hf] at hk ⊢
    by_cases hm0 : m.2.2 = 0
    · -- then extendBack started from the untouched initial best
      obtain ⟨hma, hmb⟩ := m4 hm0
      have : e.2.2 = 0 := by omega
      exact absurd this hk
    · have hmr := m3 hm0
      have hahi : alo + (ahi - alo) = ahi := by
        rcases Nat.le_total alo ahi with h | h
        · omega
        · exfalso
          have : ahi - alo = 0 := by omega
          rw [this] at hmr
          omega
      refine ⟨b3 m1, b4 m2, by omega, by omega⟩
  · exact ⟨b3 m1, b4 m2, hf.1, hf.2⟩

/-- Dropping a window and pushing its two subwindows strictly decreases the
total queue weight. -/
theorem mbLoop_step_weight (a b : FP) (bj : List (Char × List Nat))
    (alo ahi blo bhi : Nat) (rest : List (Nat × Nat × Nat × Nat))
    (hk : (findLongestMatch a b bj alo ahi blo bhi).2.2 ≠ 0) :
    (((if (findLongestMatch a b bj alo ahi blo bhi).1 +
            (findLongestMatch a b bj alo ahi blo bhi).2.2 < ahi ∧
          (findLongestMatch a b bj alo ahi blo bhi).2.1 +
            (findLongestMatch a b bj alo ahi blo bhi).2.2 < bhi then
          [((findLongestMatch a b bj alo ahi blo bhi).1 +
              (findLongestMatch a b bj alo ahi blo bhi).2.2, ahi,
            (findLongestMatch a b bj alo ahi blo bhi).2.1 +
              (findLongestMatch a b bj alo ahi blo bhi).2.2, bhi)] else []) ++
       (if alo < (findLongestMatch a b bj alo ahi blo bhi).1 ∧
            blo < (findLongestMatch a b bj alo ahi blo bhi).2.1 then
          [(alo, (findLongestMatch a b bj alo ahi blo bhi).1, blo,
            (findLongestMatch a b bj alo ahi blo bhi).2.1)] else []) ++
       rest).map quadWeight).sum
      < (((alo, ahi, blo, bhi) :: rest).map quadWeight).sum := by
  obtain ⟨hb1, hb2, hb3, hb4⟩ := findLongestMatch_bounds a b bj alo ahi blo bhi hk
  have hk1 : 1 ≤ (findLongestMatch a b bj alo ahi blo bhi).2.2 :=
    Nat.one_le_iff_ne_zero.mpr hk
  simp only [List.map_append, List.sum_append, List.map_cons, List.sum_cons]
  split <;> split <;> simp [quadWeight] <;> omega

/-- Any fuel at least the total queue weight yields the same result: the
fuel is an artifact of modelling the Python while-loop, not a semantic
parameter. -/
theorem mbLoop_fuel_irrel (a b : FP) (bj : List (Char × List Nat)) :
    ∀ (n f1 f2 : Nat) (q : List (Nat × Nat × Nat × Nat))
      (acc : List (Nat × Nat × Nat)),
      (q.map quadWeight).sum ≤ n → (q.map quadWeight).sum ≤ f1 →
      (q.map quadWeight).sum ≤ f2 →
      mbLoop a b bj f1 q acc = mbLoop a b bj f2 q acc := by
  intro n
  induction n with
  | zero =>
    intro f1 f2 q acc hn _ _
    match q with
    | [] => cases f1 <;> cases f2 <;> rfl
    | (alo, ahi, blo, bhi) :: rest =>
      exfalso
      simp only [List.map_cons, List.sum_cons, quadWeight] at hn
      omega
  | succ n ih =>
    intro f1 f2 q acc hn h1 h2
    match q with
    | [] => cases f1 <;> cases f2 <;> rfl
    | (alo, ahi, blo, bhi) :: rest =>
      have hw : 1 ≤ (((alo, ahi, blo, bhi) :: rest).map quadWeight).sum := by
        simp only [List.map_cons, List.sum_cons, quadWeight]
        omega
      cases f1 with
      | zero => exact absurd (Nat.le_trans hw h1) (by omega)
      | succ f1 =>
        cases f2 with
        | zero => exact absurd (Nat.le_trans hw h2) (by omega)
        | succ f2 =>
          simp only [mbLoop]
          by_cases hk : (findLongestMatch a b bj alo ahi blo bhi).2.2 = 0
          · simp only [if_pos hk]
            have hsplit : (((alo, ahi, blo, bhi) :: rest).map quadWeight).sum
                = quadWeight (alo, ahi, blo, bhi) + (rest.map quadWeight).sum := by
              simp
            have hw1 : 1 ≤ quadWeight (alo, ahi, blo, bhi) := by
              simp [quadWeight]
            exact ih f1 f2 rest acc (by omega) (by omega) (by omega)
          · simp only [if_neg hk]
            have hdec := mbLoop_step_weight a b bj alo ahi blo bhi rest hk
            exact ih f1 f2 _ _ (by omega) (by omega) (by omega)

/-! Characterization of the b2j map, used to prove that ratio is
reflexive. -/

theorem lookupMap_addPos (m : List (Char × List Nat)) (c0 : Char) (j : Nat)
    (c : Char) :
    lookupMap (addPos m c0 j) c
      = lookupMap m c ++ (if c0 = c then [j] else []) := by
  induction m with
  | nil =>
    by_cases h : c0 = c <;> simp [addPos, lookupMap, h]
  | cons e rest ih =>
    obtain ⟨c', js⟩ := e
    by_cases h1 : c' = c0
    · subst h1
      by_cases h2 : c' = c
      · subst h2; simp [addPos, lookupMap]
      · simp [addPos, lookupMap, h2]
    · by_cases h2 : c' = c
      · subst h2
        have hc0 : ¬ c0 = c' := fun h => h1 h.symm
        simp [addPos, lookupMap, h1, hc0]
      · simp [addPos, lookupMap, h1, h2, ih]

theorem lookupMap_buildMapAux (rest : FP) :
    ∀ (m : List (Char × List Nat)) (j0 : Nat) (c : Char),
      lookupMap (buildMapAux m j0 rest) c = lookupMap m c ++ posAux rest j0 c := by
  induction rest with
  | nil => intro m j0 c; simp [buildMapAux, posAux]
  | cons x xs ih =>
    intro m j0 c
    simp only [buildMapAux, posAux]
    rw [ih, lookupMap_addPos, List.append_assoc]

theorem lookupMap_buildMap (b : FP) (c : Char) :
    lookupMap (buildMap b) c = posAux b 0 c := by
  rw [buildMap, lookupMap_buildMapAux]
  rfl

/-- Membership in posAux: exactly the in-range positions holding c. -/
theorem mem_posAux (l : FP) :
    ∀ (j0 : Nat) (c : Char) (j : Nat),
      j ∈ posAux l j0 c ↔
        ∃ t, t < l.length ∧ j = j0 + t ∧ l.getD t dummy = c := by
  induction l with
  | nil => intro j0 c j; simp [posAux]
  | cons x xs ih =>
    intro j0 c j
    simp only [posAux, List.mem_append]
    constructor
    · intro h
      rcases h with h | h
      · refine ⟨0, by simp, ?_, ?_⟩
        · rcases (by split at h <;> simp_all : x = c ∧ j = j0) with ⟨_, rfl⟩
          omega
        · rcases (by split at h <;> simp_all : x = c ∧ j = j0) with ⟨rfl, _⟩
          simp
      · obtain ⟨t, ht, rfl, hc⟩ := (ih (j0 + 1) c j).1 h
        exact ⟨t + 1, by simpa using ht, by omega, by simpa using hc⟩
    · rintro ⟨t, ht, rfl, hc⟩
      match t with
      | 0 =>
        left
        simp only [List.getD] at hc
        simp at hc
        simp [hc]
      | t + 1 =>
        right
        refine (ih (j0 + 1) c (j0 + (t + 1))).2 ⟨t, by simpa using ht, by omega, ?_⟩
        simpa using hc

/-- Every position in posAux is at least the offset. -/
theorem le_of_mem_posAux (l : FP) (j0 : Nat) (c : Char) (j : Nat)
    (h : j ∈ posAux l j0 c) : j0 ≤ j := by
  obtain ⟨t, _, rfl, _⟩ := (mem_posAux l j0 c j).1 h
  omega

/-- posAux lists positions in strictly increasing order. -/
theorem posAux_pairwise (l : FP) :
    ∀ j0 c, (posAux l j0 c).Pairwise (· < ·) := by
  induction l with
  | nil => intro j0 c; simp [posAux]
  | cons x xs ih =>
    intro j0 c
    simp only [posAux]
    by_cases h : x = c
    · simp only [if_pos h, List.singleton_append]
      refine List.Pairwise.cons ?_ (ih (j0 + 1) c)
      intro j hj
      have := le_of_mem_posAux xs (j0 + 1) c j hj
      omega
    · simpa [if_neg h] using ih (j0 + 1) c

/-- A key absent from the association list looks up to the empty list. -/
theorem lookupMap_eq_nil_of_not_mem (m : List (Char × List Nat)) (c : Char)
    (h : c ∉ m.map Prod.fst) : lookupMap m c = [] := by
  induction m with
  | nil => rfl
  | cons e rest ih =>
    obtain ⟨c', js⟩ := e
    simp only [List.map_cons, List.mem_cons] at h
    push_neg at h
    simp only [lookupMap, if_neg (fun he : c' = c => h.1 he.symm)]
    exact ih h.2

/-- addPos only adds the key of the inserted character. -/
theorem mem_keys_addPos (m : List (Char × List Nat)) (c0 : Char) (j : Nat)
    (c : Char) :
    c ∈ (addPos m c0 j).map Prod.fst ↔ c ∈ m.map Prod.fst ∨ c = c0 := by
  induction m with
  | nil => simp [addPos, eq_comm]
  | cons e rest ih =>
    obtain ⟨c', js⟩ := e
    by_cases h : c' = c0
    · subst h; simp [addPos]
      tauto
    · simp only [addPos, if_neg h, List.map_cons, List.mem_cons, ih]
      tauto

/-- addPos preserves distinctness of the keys. -/
theorem keys_nodup_addPos (m : List (Char × List Nat)) (c0 : Char) (j : Nat)
    (h : (m.map Prod.fst).Nodup) : ((addPos m c0 j).map Prod.fst).Nodup := by
  induction m with
  | nil => simp [addPos]
  | cons e rest ih =>
    obtain ⟨c', js⟩ := e
    simp only [List.map_cons, List.nodup_cons] at h
    by_cases hc : c' = c0
    · subst hc
      simpa [addPos] using h
    · simp only [addPos, if_neg hc, List.map_cons, List.nodup_cons]
      refine ⟨?_, ih h.2⟩
      rw [mem_keys_addPos]
      rintro (hm | rfl)
      · exact h.1 hm
      · exact hc rfl

/-- The raw b2j map has distinct keys. -/
theorem keys_nodup_buildMap (b : FP) : ((buildMap b).map Prod.fst).Nodup := by
  rw [buildMap]
  have : ∀ (l : FP) (m : List (Char × List Nat)) (j0 : Nat),
      (m.map Prod.fst).Nodup → ((buildMapAux m j0 l).map Prod.fst).Nodup := by
    intro l
    induction l with
    | nil => intro m j0 h; exact h
    | cons x xs ih =>
      intro m j0 h
      exact ih _ _ (keys_nodup_addPos m x j0 h)
  exact this b [] 0 (by simp)

/-- Lookup through a filtered association list with distinct keys. -/
theorem lookupMap_filter (m : List (Char × List Nat))
    (p : Char × List Nat → Bool) (c : Char)
    (hnd : (m.map Prod.fst).Nodup) :
    lookupMap (m.filter p) c
      = if p (c, lookupMap m c) then lookupMap m c else [] := by
  induction m with
  | nil => simp [lookupMap]
  | cons e rest ih =>
    obtain ⟨c', js⟩ := e
    simp only [List.map_cons, List.nodup_cons] at hnd
    by_cases hc : c' = c
    · subst hc
      have hnil : lookupMap (rest.filter p) c' = [] := by
        apply lookupMap_eq_nil_of_not_mem
        intro hmem
        simp only [List.mem_map] at hmem
        obtain ⟨e', he', hfst⟩ := hmem
        exact hnd.1 (List.mem_map.mpr ⟨e', List.mem_of_mem_filter he', hfst⟩)
      by_cases hp : p (c', js)
      · simp [List.filter, hp, lookupMap]
      · simp only [List.filter, hp]
        simp only [lookupMap, if_pos rfl]
        rw [if_neg (by simpa using hp)]
        exact hnil
    · simp only [lookupMap, if_neg hc]
      by_cases hp : p (c', js)
      · simp only [List.filter, hp, lookupMap, if_neg hc]
        exact ih hnd.2
      · simp only [List.filter, hp]
        exact ih hnd.2

/-- The filtered b2j map: popular characters look up to nothing, the rest
to their ascending occurrence lists. -/
theorem lookupMap_chainB (b : FP) (c : Char) :
    lookupMap (chainB b) c = if isPop b c then [] else posAux b 0 c := by
  rw [chainB]
  by_cases hlen : 200 ≤ b.length
  · simp only [if_pos hlen]
    rw [lookupMap_filter _ _ _ (keys_nodup_buildMap b), lookupMap_buildMap]
    by_cases hp : isPop b c
    · rw [if_neg, if_pos hp]
      have := hp.2
      simpa using (by omega : ¬ ((posAux b 0 c).length ≤ b.length / 100 + 1))
    · rw [if_pos, if_neg hp]
      have : ¬ (b.length / 100 + 1 < (posAux b 0 c).length) :=
        fun h => hp ⟨hlen, h⟩
      simpa using (by omega : (posAux b 0 c).length ≤ b.length / 100 + 1)
  · simp only [if_neg hlen]
    rw [lookupMap_buildMap, if_neg (fun h : isPop b c => hlen h.1)]

/-! The diagonal argument: on two identical sequences the main loop of
find_longest_match always reports a block on the main diagonal, and the
extension loops then grow any diagonal block to the whole sequence.  The
value chainD i j is the length of the run of equal, non-popular pairs
ending at (i, j), which is exactly what j2len holds. -/

theorem chainD_eq_zero_of_not_rcond (s : FP) (i j : Nat)
    (h : ¬ rcond s i j) : chainD s i j = 0 := by
  match i, j with
  | 0, j => simp [chainD, h]
  | i + 1, 0 => simp [chainD, h]
  | i + 1, j + 1 => simp [chainD, h]

theorem one_le_chainD_diag (s : FP) (j : Nat) (h : rcond s j j) :
    1 ≤ chainD s j j := by
  match j with
  | 0 => simp [chainD, h]
  | j + 1 => simp [chainD, h]

/-- A chain ending at (i, j) is no longer than the diagonal run at i. -/
theorem chainD_le_diag (s : FP) :
    ∀ i j, i < s.length → chainD s i j ≤ chainD s i i := by
  intro i
  induction i with
  | zero =>
    intro j hi
    by_cases h : rcond s 0 j
    · have hd : rcond s 0 0 := ⟨hi, rfl, h.2.2⟩
      simp [chainD, h, hd]
    · simp [chainD, h]
  | succ i ih =>
    intro j hi
    match j with
    | 0 =>
      by_cases h : rcond s (i + 1) 0
      · have hd : rcond s (i + 1) (i + 1) := ⟨hi, rfl, h.2.2⟩
        simp only [chainD, if_pos h, if_pos hd]
        omega
      · simp [chainD, h]
    | j + 1 =>
      by_cases h : rcond s (i + 1) (j + 1)
      · have hd : rcond s (i + 1) (i + 1) := ⟨hi, rfl, h.2.2⟩
        simp only [chainD, if_pos h, if_pos hd]
        exact Nat.succ_le_succ (ih j (Nat.lt_of_succ_lt hi))
      · simp [chainD, h]

/-- A chain ending at (i, j) is no longer than the diagonal run at j. -/
theorem chainD_le_swap (s : FP) :
    ∀ i j, chainD s i j ≤ chainD s j j := by
  intro i
  induction i with
  | zero =>
    intro j
    by_cases h : rcond s 0 j
    · have hjj : rcond s j j := ⟨h.1, rfl, by rw [h.2.1]; exact h.2.2⟩
      simpa [chainD, h] using one_le_chainD_diag s j hjj
    · simp [chainD, h]
  | succ i ih =>
    intro j
    match j with
    | 0 =>
      by_cases h : rcond s (i + 1) 0
      · have hjj : rcond s 0 0 := ⟨h.1, rfl, by rw [h.2.1]; exact h.2.2⟩
        simp [chainD, h, hjj]
      · simp [chainD, h]
    | j + 1 =>
      by_cases h : rcond s (i + 1) (j + 1)
      · have hjj : rcond s (j + 1) (j + 1) :=
          ⟨h.1, rfl, by rw [h.2.1]; exact h.2.2⟩
        simp only [chainD, if_pos h, if_pos hjj]
        exact Nat.succ_le_succ (ih j)
      · simp [chainD, h]

/-- Chains are bounded by the number of processed rows. -/
theorem chainD_le_succ (s : FP) : ∀ i j, chainD s i j ≤ i + 1 := by
  intro i
  induction i with
  | zero => intro j; by_cases h : rcond s 0 j <;> simp [chainD, h]
  | succ i ih =>
    intro j
    match j with
    | 0 => by_cases h : rcond s (i + 1) 0 <;> simp [chainD, h]
    | j + 1 =>
      by_cases h : rcond s (i + 1) (j + 1)
      · simp only [chainD, if_pos h]
        exact Nat.succ_le_succ (ih j)
      · simp [chainD, h]

/-- The freshly computed j2len value at (i, j) is exactly chainD i j. -/
theorem chainD_step (s : FP) (i j : Nat) (h : rcond s i j) :
    (if j = 0 then 0 else if i = 0 then 0 else chainD s (i - 1) (j - 1)) + 1
      = chainD s i j := by
  match i, j with
  | 0, 0 => simp [chainD, h]
  | 0, j + 1 => simp [chainD, h]
  | i + 1, 0 => simp [chainD, h]
  | i + 1, j + 1 => simp [chainD, h]

/-- On identical strings the inner loop keeps the best block diagonal:
an off-diagonal chain ending at (i, j) is dominated by the diagonal run at
min i j, which the loop has already recorded in bestsize. -/
theorem innerRefl (s : FP) (i : Nat) (hi : i < s.length)
    (j2lOld : List (Nat × Nat))
    (Hj2l : ∀ j, alookup j2lOld j = if i = 0 then 0 else chainD s (i - 1) j) :
    ∀ (L : List Nat) (bi bs : Nat) (acc : List (Nat × Nat)),
      (∀ j ∈ L, rcond s i j) →
      L.Pairwise (· < ·) →
      (i ∈ L ∨ chainD s i i ≤ bs) →
      (∀ i', i' < i → chainD s i' i' ≤ bs) →
      bi + bs ≤ i + 1 →
      (∀ j, j ∉ L → alookup acc j = chainD s i j) →
      ∃ bi' bs',
        (innerLoop j2lOld i 0 s.length L (bi, bi, bs) acc).1 = (bi', bi', bs') ∧
        bi' + bs' ≤ i + 1 ∧
        (∀ i', i' ≤ i → chainD s i' i' ≤ bs') ∧
        (∀ j, alookup (innerLoop j2lOld i 0 s.length L (bi, bi, bs) acc).2 j
          = chainD s i j) := by
  intro L
  induction L with
  | nil =>
    intro bi bs acc _ _ hphase hB hbd hacc
    refine ⟨bi, bs, rfl, hbd, ?_, fun j => hacc j (by simp)⟩
    intro i' hi'
    rcases Nat.lt_or_ge i' i with h | h
    · exact hB i' h
    · have : i' = i := by omega
      subst this
      rcases hphase with h | h
      · simp at h
      · exact h
  | cons j0 rest ih =>
    intro bi bs acc hL hpw hphase hB hbd hacc
    have hr : rcond s i j0 := hL j0 (List.mem_cons_self _ _)
    have hj0n : j0 < s.length := hr.1
    have hpw' := List.pairwise_cons.mp hpw
    have hk : (if j0 = 0 then 0 else alookup j2lOld (j0 - 1)) + 1
        = chainD s i j0 := by
      by_cases hj0 : j0 = 0
      · subst hj0
        simpa using chainD_step s i 0 hr
      · rw [if_neg hj0, Hj2l (j0 - 1)]
        have := chainD_step s i j0 hr
        rwa [if_neg hj0] at this
    have hacc' : ∀ (v : Nat), ∀ j, j ∉ rest →
        alookup ((j0, chainD s i j0) :: acc) j = chainD s i j := by
      intro v j hj
      by_cases hjj : j0 = j
      · subst hjj
        simp [alookup]
      · simp only [alookup, if_neg hjj]
        exact hacc j (by
          intro hmem
          rcases List.mem_cons.mp hmem with h | h
          · exact hjj h.symm
          · exact hj h)
    simp only [innerLoop, if_neg (Nat.not_lt_zero j0),
      if_neg (not_le.mpr hj0n)]
    simp only [hk]
    rcases Nat.lt_trichotomy j0 i with hlt | heq | hgt
    · -- j0 < i: the chain is dominated by the diagonal run at j0
      have hle : chainD s i j0 ≤ bs :=
        le_trans (chainD_le_swap s i j0) (hB j0 hlt)
      rw [if_neg (by simp only [] ; omega : ¬ (bi, bi, bs).2.2 < chainD s i j0)]
      refine ih bi bs _ (fun j hj => hL j (List.mem_cons_of_mem _ hj))
        hpw'.2 ?_ hB hbd (hacc' (chainD s i j0))
      rcases hphase with h | h
      · rcases List.mem_cons.mp h with h | h
        · omega
        · exact Or.inl h
      · exact Or.inr h
    · -- j0 = i: the diagonal entry; it may update the best, staying diagonal
      subst heq
      by_cases hup : (bi, bi, bs).2.2 < chainD s j0 j0
      · rw [if_pos hup]
        have hkb : chainD s j0 j0 ≤ j0 + 1 := chainD_le_succ s j0 j0
        have hdiag : (j0 + 1 - chainD s j0 j0, j0 + 1 - chainD s j0 j0,
            chainD s j0 j0) = ((j0 + 1 - chainD s j0 j0 : Nat),
            (j0 + 1 - chainD s j0 j0 : Nat), chainD s j0 j0) := rfl
        refine ih (j0 + 1 - chainD s j0 j0) (chainD s j0 j0) _
          (fun j hj => hL j (List.mem_cons_of_mem _ hj)) hpw'.2
          (Or.inr (Nat.le_refl _)) ?_ (by omega) (hacc' (chainD s j0 j0))
        intro i' hi'
        simp only [] at hup
        exact le_trans (hB i' hi') (Nat.le_of_lt hup)
      · rw [if_neg hup]
        simp only [not_lt] at hup
        refine ih bi bs _ (fun j hj => hL j (List.mem_cons_of_mem _ hj))
          hpw'.2 (Or.inr (by simpa using hup)) hB hbd
          (hacc' (chainD s j0 j0))
    · -- i < j0: the diagonal entry was already processed, so no update
      have hir : chainD s i i ≤ bs := by
        rcases hphase with h | h
        · rcases List.mem_cons.mp h with h | h
          · omega
          · exact absurd (hpw'.1 i h) (by omega)
        · exact h
      have hle : chainD s i j0 ≤ bs :=
        le_trans (chainD_le_diag s i j0 hi) hir
      rw [if_neg (by simp only [] ; omega : ¬ (bi, bi, bs).2.2 < chainD s i j0)]
      refine ih bi bs _ (fun j hj => hL j (List.mem_cons_of_mem _ hj))
        hpw'.2 (Or.inr hir) hB hbd (hacc' (chainD s i j0))

/-- On identical strings the main loop of find_longest_match ends with a
diagonal best block contained in the sequence. -/
theorem outerRefl (s : FP) :
    ∀ (fuel i bi bs : Nat) (j2l : List (Nat × Nat)),
      i + fuel = s.length →
      (∀ j, alookup j2l j = if i = 0 then 0 else chainD s (i - 1) j) →
      (∀ i', i' < i → chainD s i' i' ≤ bs) →
      bi + bs ≤ i →
      ∃ bi' bs',
        outerLoop s (chainB s) 0 s.length fuel i (bi, bi, bs) j2l
          = (bi', bi', bs') ∧ bi' + bs' ≤ s.length := by
  intro fuel
  induction fuel with
  | zero =>
    intro i bi bs j2l hn _ _ hbd
    exact ⟨bi, bs, rfl, by omega⟩
  | succ fuel ih =>
    intro i bi bs j2l hn Hj2l hB hbd
    have hi : i < s.length := by omega
    have hchar : lookupMap (chainB s) (s.getD i dummy)
        = if isPop s (s.getD i dummy) then []
          else posAux s 0 (s.getD i dummy) := lookupMap_chainB s _
    have hmemL : ∀ j, j ∈ lookupMap (chainB s) (s.getD i dummy) ↔ rcond s i j := by
      intro j
      rw [hchar]
      by_cases hp : isPop s (s.getD i dummy)
      · simp only [if_pos hp, List.not_mem_nil, false_iff]
        exact fun hc => hc.2.2 hp
      · simp only [if_neg hp, mem_posAux]
        constructor
        · rintro ⟨t, ht, rfl, hc⟩
          exact ⟨by simpa using ht, by simpa using hc, hp⟩
        · rintro ⟨h1, h2, _⟩
          exact ⟨j, h1, by omega, h2⟩
    have hinner := innerRefl s i hi j2l Hj2l
      (lookupMap (chainB s) (s.getD i dummy)) bi bs []
      (fun j hj => (hmemL j).mp hj)
      (by
        rw [hchar]
        split
        · exact List.Pairwise.nil
        · exact posAux_pairwise s 0 _)
      (by
        by_cases hrc : rcond s i i
        · exact Or.inl ((hmemL i).mpr hrc)
        · exact Or.inr (by simp [chainD_eq_zero_of_not_rcond s i i hrc]))
      hB (by omega)
      (by
        intro j hj
        have : ¬ rcond s i j := fun hc => hj ((hmemL j).mpr hc)
        simp [alookup, chainD_eq_zero_of_not_rcond s i j this])
    obtain ⟨bi', bs', heq, hbd', hBall, haccAll⟩ := hinner
    simp only [outerLoop]
    rw [heq]
    exact ih (i + 1) bi' bs' _ (by omega)
      (fun j => by simpa using haccAll j)
      (fun i' hi' => hBall i' (by omega)) hbd'

/-- find_longest_match on a string against itself over the full window
returns the whole string. -/
theorem findLongestMatch_refl (s : FP) :
    findLongestMatch s s (chainB s) 0 s.length 0 s.length
      = (0, 0, s.length) := by
  obtain ⟨bi, bs, hmain, hbd⟩ := outerRefl s (s.length - 0) 0 0 0 []
    (by omega) (fun j => by simp [alookup]) (fun i' hi' => by omega) (by omega)
  have hback : ∀ bi bs, extendBack s s 0 0 bi bi bs = (0, 0, bs + bi) := by
    intro bi
    induction bi with
    | zero => intro bs; simp [extendBack]
    | succ bi ih =>
      intro bs
      rw [extendBack, if_pos ⟨Nat.succ_pos bi, Nat.succ_pos bi, by simp⟩]
      simp only [Nat.add_sub_cancel]
      rw [ih (bs + 1), show bs + 1 + bi = bs + (bi + 1) from by omega]
  have hfwdAux : ∀ fuel k, k + fuel = s.length →
      extendFwdAux s s s.length s.length 0 0 fuel k = s.length := by
    intro fuel
    induction fuel with
    | zero => intro k hk; simpa using hk.symm ▸ rfl
    | succ fuel ih =>
      intro k hk
      rw [extendFwdAux, if_pos ⟨by omega, by omega, rfl⟩]
      exact ih (k + 1) (by omega)
  have hfwd : ∀ k, k ≤ s.length → extendFwd s s s.length s.length 0 0 k
      = s.length := by
    intro k hk
    rw [extendFwd]
    exact hfwdAux (s.length - (0 + k)) k (by omega)
  rw [findLongestMatch]
  rw [hmain]
  simp only []
  rw [hback bi bs]
  simp only []
  rw [hfwd (bs + bi) (by omega)]

/-- ratio of a string against itself is 1: the single matching block covers
the whole string, whatever the autojunk filter removed. -/
theorem ratio_refl (s : FP) : ratio s s = 1 := by
  by_cases hn : s.length = 0
  · rw [ratio, if_pos (by omega)]
  · have hnil : ∀ f acc, mbLoop s s (chainB s) f [] acc = acc := by
      intro f acc
      cases f <;> rfl
    have hraw : getMatchingBlocksRaw s s = [(0, 0, s.length)] := by
      rw [getMatchingBlocksRaw]
      rw [mbLoop]
      rw [findLongestMatch_refl s]
      simp only [if_neg hn]
      rw [if_neg (by omega : ¬ (0 + s.length < s.length ∧ 0 + s.length < s.length)),
        if_neg (by omega : ¬ ((0 : Nat) < 0 ∧ (0 : Nat) < 0))]
      simp only [List.append_nil, List.nil_append]
      exact hnil _ _
    have hmb : getMatchingBlocks s s = [(0, 0, s.length), (s.length, s.length, 0)] := by
      rw [getMatchingBlocks, hraw]
      simp [sortTriples, insertTriple, mergeAdjacent, hn]
    rw [ratio, if_neg (by omega), matchesTotal, hmb]
    simp only [List.map_cons, List.map_nil, List.sum_cons, List.sum_nil]
    have hq : ((s.length : ℚ)) ≠ 0 := by
      exact_mod_cast hn
    field_simp
    ring

end Difflib

/-- Reflexivity of the similarity ratio, for every fingerprint: the main
loop of find_longest_match only ever reports diagonal blocks on identical
inputs, and the extension loops then grow the block to the whole string,
so autojunk never breaks reflexivity. -/
theorem similarity_self (f : FP) : similarity f f = 1 :=
  Difflib.ratio_refl f

/-- Taking k chunks reads exactly the first size * k elements. -/
theorem chunksAux_take_join (size : Nat) (hs : 0 < size) :
    ∀ (fuel : Nat) (l : FP) (k : Nat), l.length ≤ fuel →
      ((chunksAux size fuel l).take k).flatten = l.take (size * k) := by
  intro fuel
  induction fuel with
  | zero =>
    intro l k hl
    have : l = [] := List.length_eq_zero.mp (by omega)
    subst this
    simp [chunksAux]
  | succ fuel ih =>
    intro l k hl
    match l with
    | [] => simp [chunksAux]
    | x :: xs =>
      rw [chunksAux]
      match k with
      | 0 => simp
      | k + 1 =>
        rw [List.take_succ_cons, List.flatten_cons]
        rw [ih ((x :: xs).drop size) k (by
          simp only [List.length_drop]
          simp at hl ⊢
          omega)]
        rw [← List.take_add]
        congr 1
        ring

/-- Every chunk is nonempty and at most the chunk size long. -/
theorem chunksAux_mem (size : Nat) (hs : 0 < size) :
    ∀ (fuel : Nat) (l : FP) (b : FP), b ∈ chunksAux size fuel l →
      b.length ≤ size ∧ b ≠ [] := by
  intro fuel
  induction fuel with
  | zero =>
    intro l b hb
    match l with
    | [] => simp [chunksAux] at hb
    | x :: xs => simp [chunksAux] at hb
  | succ fuel ih =>
    intro l b hb
    match l with
    | [] => simp [chunksAux] at hb
    | x :: xs =>
      rw [chunksAux] at hb
      rcases List.mem_cons.mp hb with rfl | hb
      · constructor
        · simp
        · simp only [ne_eq, List.take_eq_nil_iff]
          rintro (h | h)
          · omega
          · exact absurd h (by simp)
      · exact ih _ b hb

/-- Membership in the seen-accumulator de-duplication. -/
theorem mem_dedupAux : ∀ (l : List String) (seen : List String) (x : String),
    x ∈ A06.dedupAux seen l ↔ x ∈ l ∧ x ∉ seen := by
  intro l
  induction l with
  | nil => intro seen x; simp [A06.dedupAux]
  | cons y ys ih =>
    intro seen x
    rw [A06.dedupAux]
    by_cases hy : y ∈ seen
    · rw [if_pos hy, ih]
      constructor
      · rintro ⟨h1, h2⟩
        exact ⟨List.mem_cons_of_mem _ h1, h2⟩
      · rintro ⟨h1, h2⟩
        rcases List.mem_cons.mp h1 with rfl | h1
        · exact absurd hy h2
        · exact ⟨h1, h2⟩
    · rw [if_neg hy]
      simp only [List.mem_cons, ih, List.mem_cons]
      constructor
      · rintro (rfl | ⟨h1, h2⟩)
        · exact ⟨Or.inl rfl, hy⟩
        · refine ⟨Or.inr h1, fun hc => h2 (by simp [hc])⟩
      · rintro ⟨rfl | h1, h2⟩
        · exact Or.inl rfl
        · by_cases hx : x = y
          · exact Or.inl hx
          · exact Or.inr ⟨h1, by simp [hx, h2]⟩

/-- Membership characterization of the blocking-index lookup: the union
of owners sharing at least one chunk. -/
theorem mem_lookupIndex (idx : A06.IndexTable) (blocks : List FP) (p : String) :
    p ∈ A06.lookupIndex idx blocks ↔ ∃ b ∈ blocks, (b, p) ∈ idx := by
  rw [A06.lookupIndex, A06.dedupFirst, mem_dedupAux]
  simp only [List.not_mem_nil, not_false_iff, and_true, List.mem_map,
    List.mem_filter]
  constructor
  · rintro ⟨e, ⟨he, hb⟩, rfl⟩
    exact ⟨e.1, by simpa using hb, by simpa using he⟩
  · rintro ⟨b, hb, he⟩
    exact ⟨(b, p), ⟨he, by simpa using hb⟩, rfl⟩

/-- Full characterization of the fuzzy-match fold of
find_local_fuzzy_match: the running score is monotone and bounds every
candidate's ratio, and the final best is either the untouched initial
value or the first-seen candidate attaining the final (maximal) score,
every earlier candidate being strictly worse. -/
theorem fuzzyFold_spec (files : List A06.FileRow) (fp : FP) :
    ∀ (cands : List String) (b : Option String × ℚ × Option QualityRec),
      b.2.1 ≤ (cands.foldl (A06.fuzzyStep files fp) b).2.1 ∧
      (∀ p ∈ cands, ∀ row, A06.getFileRecord files p = some row →
        similarity fp row.fingerprint
          ≤ (cands.foldl (A06.fuzzyStep files fp) b).2.1) ∧
      ((cands.foldl (A06.fuzzyStep files fp) b) = b ∨
        ∃ pre p post row,
          cands = pre ++ p :: post ∧
          A06.getFileRecord files p = some row ∧
          (cands.foldl (A06.fuzzyStep files fp) b).1 = some p ∧
          (cands.foldl (A06.fuzzyStep files fp) b).2.1
            = similarity fp row.fingerprint ∧
          b.2.1 < (cands.foldl (A06.fuzzyStep files fp) b).2.1 ∧
          (∀ q ∈ pre, ∀ row', A06.getFileRecord files q = some row' →
            similarity fp row'.fingerprint
              < (cands.foldl (A06.fuzzyStep files fp) b).2.1)) := by
  intro cands
  induction cands with
  | nil =>
    intro b
    exact ⟨le_refl _, by simp, Or.inl rfl⟩
  | cons c cs ih =>
    intro b
    rw [List.foldl_cons]
    rcases hrec : A06.getFileRecord files c with _ | row
    · -- no catalog row: candidate skipped
      have hstep : A06.fuzzyStep files fp b c = b := by
        simp only [A06.fuzzyStep, hrec]
      rw [hstep]
      obtain ⟨ih1, ih2, ih3⟩ := ih b
      refine ⟨ih1, ?_, ?_⟩
      · intro p hp row' hrow'
        rcases List.mem_cons.mp hp with rfl | hp
        · rw [hrec] at hrow'; cases hrow'
        · exact ih2 p hp row' hrow'
      · rcases ih3 with h | ⟨pre, p, post, row', hc, hr, h1, h2, h3, h4⟩
        · exact Or.inl h
        · refine Or.inr ⟨c :: pre, p, post, row', by rw [hc]; rfl, hr, h1, h2, h3, ?_⟩
          intro q hq row'' hrow''
          rcases List.mem_cons.mp hq with rfl | hq
          · rw [hrec] at hrow''; cases hrow''
          · exact h4 q hq row'' hrow''
    · by_cases hup : b.2.1 < similarity fp row.fingerprint
      · -- strict improvement: the best moves to this candidate
        have hstep : A06.fuzzyStep files fp b c
            = (some c, similarity fp row.fingerprint,
               some ⟨row.qualityScore, row.format, row.fileSize⟩) := by
          simp only [A06.fuzzyStep, hrec]
          rw [if_pos hup]
        rw [hstep]
        obtain ⟨ih1, ih2, ih3⟩ := ih (some c, similarity fp row.fingerprint,
          some ⟨row.qualityScore, row.format, row.fileSize⟩)
        simp only at ih1
        refine ⟨le_trans (le_of_lt hup) ih1, ?_, ?_⟩
        · intro p hp row' hrow'
          rcases List.mem_cons.mp hp with rfl | hp
          · rw [hrec] at hrow'
            cases hrow'
            exact ih1
          · exact ih2 p hp row' hrow'
        · rcases ih3 with h | ⟨pre, p, post, row', hc, hr, h1, h2, h3, h4⟩
          · refine Or.inr ⟨[], c, cs, row, rfl, hrec, ?_, ?_, ?_, by simp⟩
            · rw [h]
            · rw [h]
            · rw [h]; exact hup
          · refine Or.inr ⟨c :: pre, p, post, row', by rw [hc]; rfl, hr, h1, h2,
              lt_trans hup h3, ?_⟩
            intro q hq row'' hrow''
            rcases List.mem_cons.mp hq with rfl | hq
            · rw [hrec] at hrow''
              cases hrow''
              exact h3
            · exact h4 q hq row'' hrow''
      · -- no improvement: first-seen candidate keeps the best on ties
        have hstep : A06.fuzzyStep files fp b c = b := by
          simp only [A06.fuzzyStep, hrec]
          rw [if_neg hup]
        rw [hstep]
        obtain ⟨ih1, ih2, ih3⟩ := ih b
        have hle : similarity fp row.fingerprint ≤ b.2.1 := le_of_not_lt hup
        refine ⟨ih1, ?_, ?_⟩
        · intro p hp row' hrow'
          rcases List.mem_cons.mp hp with rfl | hp
          · rw [hrec] at hrow'
            cases hrow'
            exact le_trans hle ih1
          · exact ih2 p hp row' hrow'
        · rcases ih3 with h | ⟨pre, p, post, row', hc, hr, h1, h2, h3, h4⟩
          · exact Or.inl h
          · refine Or.inr ⟨c :: pre, p, post, row', by rw [hc]; rfl, hr, h1, h2, h3, ?_⟩
            intro q hq row'' hrow''
            rcases List.mem_cons.mp hq with rfl | hq
            · rw [hrec] at hrow''
              cases hrow''
              exact lt_of_le_of_lt hle h3
            · exact h4 q hq row'' hrow''

namespace Refactored

/-- Every candidate probed by get_safe_path lives in the directory of the
requested target. -/
theorem getSafePathAux_dir (fs : List PathT) (base : PathT) :
    ∀ (fuel : Nat) (cur : PathT) (c : Nat), cur.dir = base.dir →
      (getSafePathAux fs base fuel cur c).dir = base.dir := by
  intro fuel
  induction fuel with
  | zero => intro cur c h; exact h
  | succ fuel ih =>
    intro cur c h
    rw [getSafePathAux]
    by_cases hm : cur ∈ fs
    · rw [if_pos hm]
      exact ih (counterName base c) (c + 1) rfl
    · rw [if_neg hm]
      exact h

theorem getSafePath_dir (fs : List PathT) (p : PathT) :
    (getSafePath fs p).dir = p.dir :=
  getSafePathAux_dir fs p (fs.length + 1) p 1 rfl

end Refactored

namespace A11

/-- The prune loop removes exactly the catalog rows whose snapshot path is
missing on disk, together with the blocking-index rows of those paths. -/
theorem pruneLoop_spec (existsFn : String → Bool) :
    ∀ (ps : List String) (st : AState),
      pruneLoop existsFn ps st =
        { st with
          files := st.files.filter
            (fun r => ¬(r.path ∈ ps ∧ ¬ existsFn r.path)),
          fingerprintIndex := st.fingerprintIndex.filter
            (fun e => ¬(e.2 ∈ ps ∧ ¬ existsFn e.2)) } := by
  intro ps
  induction ps with
  | nil =>
    intro st
    rw [pruneLoop]
    have h1 : st.files.filter
        (fun r => ¬(r.path ∈ ([] : List String) ∧ ¬ existsFn r.path))
        = st.files := by
      apply List.filter_eq_self.mpr
      intro r _
      simp
    have h2 : st.fingerprintIndex.filter
        (fun e => ¬(e.2 ∈ ([] : List String) ∧ ¬ existsFn e.2))
        = st.fingerprintIndex := by
      apply List.filter_eq_self.mpr
      intro e _
      simp
    rw [h1, h2]
  | cons p rest ih =>
    intro st
    rw [pruneLoop]
    by_cases hp : existsFn p
    · rw [if_pos hp, ih st]
      congr 1
      · apply List.filter_congr
        intro r _
        simp only [decide_eq_decide, List.mem_cons]
        by_cases hr : r.path = p
        · simp [hr, hp]
        · simp [hr]
      · apply List.filter_congr
        intro e _
        simp only [decide_eq_decide, List.mem_cons]
        by_cases he : e.2 = p
        · simp [he, hp]
        · simp [he]
    · rw [if_neg hp, ih _]
      congr 1
      · rw [List.filter_filter]
        apply List.filter_congr
        intro r _
        simp only [Bool.and_eq_true, decide_eq_true_eq, decide_eq_decide,
          Bool.decide_and, List.mem_cons]
        by_cases hr : r.path = p
        · simp [hr, hp]
        · simp [hr]
      · rw [List.filter_filter]
        apply List.filter_congr
        intro e _
        simp only [Bool.and_eq_true, decide_eq_true_eq, decide_eq_decide,
          Bool.decide_and, List.mem_cons]
        by_cases he : e.2 = p
        · simp [he, hp]
        · simp [he]

end A11

/-- C8: with the media root present, pruning removes exactly the catalog
rows whose path no longer exists, together with their blocking-index
entries, and nothing else; with the media root missing it removes nothing
and reports a warning. -/
theorem c8_prune_exact_and_guarded (existsFn : String → Bool)
    (musicFolder : String) (st : A11.AState) :
    A11.pruneDatabase existsFn musicFolder st =
      if existsFn musicFolder then
        ({ st with
            files := st.files.filter (fun r => existsFn r.path),
            fingerprintIndex := st.fingerprintIndex.filter
              (fun e => existsFn e.2 ∨
                e.2 ∉ st.files.map (fun r => r.path)) }, false)
      else (st, true) := by
  rw [A11.pruneDatabase]
  by_cases h : existsFn musicFolder
  · rw [if_pos h, if_pos h, A11.pruneLoop_spec]
    congr 1
    congr 1
    · apply List.filter_congr
      intro r hr
      have hmem : r.path ∈ st.files.map (fun r => r.path) :=
        List.mem_map.mpr ⟨r, hr, rfl⟩
      by_cases he : existsFn r.path
      · simp [he]
      · simp [he, hmem]
    · apply List.filter_congr
      intro e _
      simp only [decide_eq_decide]
      constructor
      · intro hc
        by_cases he : existsFn e.2
        · exact Or.inl he
        · exact Or.inr (fun hm => hc ⟨hm, he⟩)
      · rintro (he | he) ⟨hm, hne⟩
        · exact hne he
        · exact he hm
  · rw [if_neg h, if_neg h]

/-- C9: no operation of the A11 engine removes a row of the
fingerprint-history table known_fingerprints, and the cache update made on
every successful identification inserts the (fingerprint, acoustid)
association, so it outlives any Track deletion (pruning and duplicate
demotion included). -/
theorem c9_fingerprint_history_append_only (st : A11.AState) :
    (∀ (op : A11.EngineOp), ∀ e ∈ st.knownFingerprints,
      e ∈ (A11.applyOp op st).knownFingerprints) ∧
    (∀ (acoustidId : String) (fp : FP),
      (fp, acoustidId) ∈
        (A11.applyOp (A11.EngineOp.cacheUpdate acoustidId fp)
          st).knownFingerprints) := by
  have hprune : ∀ (existsFn : String → Bool) (ps : List String)
      (st' : A11.AState),
      (A11.pruneLoop existsFn ps st').knownFingerprints
        = st'.knownFingerprints := by
    intro existsFn ps
    induction ps with
    | nil => intro st'; rfl
    | cons p rest ih =>
      intro st'
      rw [A11.pruneLoop]
      by_cases hp : existsFn p
      · rw [if_pos hp]; exact ih _
      · rw [if_neg hp]; exact ih _
  have halbum : ∀ (dryRun : Bool) (st' : A11.AState) (path aid rid : String)
      (q : QualityRec) (dispose : Bool),
      (A11.handleAlbumDedup dryRun st' path aid rid q
        dispose).1.knownFingerprints = st'.knownFingerprints := by
    intro dryRun st' path aid rid q dispose
    rw [A11.handleAlbumDedup]
    split
    · rfl
    · split
      · split
        · rfl
        · rfl
      · split
        · rfl
        · rfl
  constructor
  · intro op e he
    cases op with
    | prune existsFn mf =>
      rw [A11.applyOp, A11.pruneDatabase]
      by_cases h : existsFn mf
      · rw [if_pos h]
        simpa [hprune] using he
      · rw [if_neg h]
        exact he
    | cacheUpdate aid fp =>
      by_cases h : (fp, aid) ∈ st.knownFingerprints
      · simpa [A11.applyOp, A11.updateFingerprintCache, h] using he
      · simp only [A11.applyOp, A11.updateFingerprintCache, if_neg h]
        exact List.mem_append_left _ he
    | indexUpdate path fp =>
      rw [A11.applyOp, A11.updateIndex]
      exact he
    | albumDedup dryRun path aid rid q dispose =>
      rw [A11.applyOp]
      rw [show (A11.handleAlbumDedup dryRun st path aid rid q
          dispose).1.knownFingerprints = st.knownFingerprints from
        halbum dryRun st path aid rid q dispose] at *
      · exact he
    | insertCatalog album row fp =>
      rw [A11.applyOp, A11.catalogInsert]
      exact he
  · intro aid fp
    by_cases h : (fp, aid) ∈ st.knownFingerprints
    · simp [A11.applyOp, A11.updateFingerprintCache, h]
    · simp only [A11.applyOp, A11.updateFingerprintCache, if_neg h]
      exact List.mem_append_right _ (by simp)

/-- C10: the empty fingerprint short-circuits the local candidate search:
whatever the catalog and index hold, it reports no match with similarity
0.0 before any index query is issued (the result does not depend on the
index at all), and totally (the embedding is a total function). -/
theorem c10_empty_fingerprint_no_match (files : List A06.FileRow)
    (idx : A06.IndexTable) :
    A06.findLocalFuzzyMatch files idx [] = (none, 0, none) := rfl

/-- C5: the blocking chunker yields at most 16 chunks of at most 16 code
units (each nonempty), whose concatenation is exactly the 256-character
prefix of the fingerprint; index lookup returns exactly the owners sharing
at least one of those chunks. -/
theorem c5_blocking_chunks_and_lookup (fp : FP) (idx : A06.IndexTable)
    (p : String) :
    (A06.getBlocks fp).length ≤ 16 ∧
    (∀ b ∈ A06.getBlocks fp, b.length ≤ 16 ∧ b ≠ []) ∧
    (A06.getBlocks fp).flatten = fp.take 256 ∧
    (p ∈ A06.lookupIndex idx (A06.getBlocks fp) ↔
      ∃ b ∈ A06.getBlocks fp, (b, p) ∈ idx) := by
  refine ⟨?_, ?_, ?_, mem_lookupIndex idx _ p⟩
  · rw [A06.getBlocks]
    exact List.length_take_le 16 _
  · intro b hb
    rw [A06.getBlocks] at hb
    exact chunksAux_mem A06.BLOCK_SIZE (by rw [A06.BLOCK_SIZE]; norm_num)
      fp.length fp b (List.mem_of_mem_take hb)
  · have h := chunksAux_take_join A06.BLOCK_SIZE
      (by rw [A06.BLOCK_SIZE]; norm_num) fp.length fp 16 (le_refl _)
    rw [A06.getBlocks]
    rw [h]
    rfl

/-- C5 witness: concrete evaluation of the chunker and lookup facts. -/
theorem c5_blocking_chunks_and_lookup_witness :
    ("abcdefghijklmnop".toList ∈
        A06.getBlocks ("abcdefghijklmnop".toList ++ "qr".toList)) ∧
    ("abcdefghijklmnop".toList.length ≤ 16 ∧
      "abcdefghijklmnop".toList ≠ []) ∧
    ("x" ∈ A06.lookupIndex [("abcdefghijklmnop".toList, "x")]
        (A06.getBlocks ("abcdefghijklmnop".toList ++ "qr".toList)) ↔
      ∃ b ∈ A06.getBlocks ("abcdefghijklmnop".toList ++ "qr".toList),
        (b, "x") ∈ [("abcdefghijklmnop".toList, "x")]) :=
  ⟨by decide,
   (c5_blocking_chunks_and_lookup ("abcdefghijklmnop".toList ++ "qr".toList)
      [("abcdefghijklmnop".toList, "x")] "x").2.1
     "abcdefghijklmnop".toList (by decide),
   (c5_blocking_chunks_and_lookup ("abcdefghijklmnop".toList ++ "qr".toList)
      [("abcdefghijklmnop".toList, "x")] "x").2.2.2⟩

/-- C3 (amended): similarity is reflexive for every fingerprint; the
symmetry half of the original claim is refuted by the counterexample. -/
theorem c3_similarity_reflexive (f : FP) : similarity f f = 1 :=
  similarity_self f

/-- The summed score, regrouped into its rank terms. -/
theorem calculateQualityScore_eq (a : A06.AudioInfo) :
    A06.calculateQualityScore a
      = (A06.formatClass a : ℚ) * 10 ^ 15 + (A06.effBits a : ℚ) * 10 ^ 12
        + (a.fileSize : ℚ) + A06.extras a := by
  rw [A06.calculateQualityScore, A06.formatClass, A06.extras, A06.effBits,
    A06.effSampleRate, A06.effBitrate]
  by_cases h : A06.isLossless a
  · rw [if_pos h, if_pos h]; push_cast; ring
  · rw [if_neg h, if_neg h]; push_cast; ring

theorem extras_nonneg (a : A06.AudioInfo) : 0 ≤ A06.extras a := by
  rw [A06.extras]
  have h1 : (0 : ℚ) ≤ (A06.effSampleRate a : ℚ) / 10 ^ 6 := by positivity
  have h2 : (0 : ℚ) ≤ (A06.effBitrate a : ℚ) / 10 ^ 9 := by positivity
  linarith

theorem extras_lt_one (a : A06.AudioInfo) (h : A06.BoundedInfo a) :
    A06.extras a < 1 := by
  obtain ⟨-, -, hsr, hbr⟩ := h
  rw [A06.extras]
  have hsr' : (A06.effSampleRate a : ℚ) < 5 * 10 ^ 5 := by
    exact_mod_cast hsr
  have hbr' : (A06.effBitrate a : ℚ) < 5 * 10 ^ 8 := by
    exact_mod_cast hbr
  have h1 : (A06.effSampleRate a : ℚ) / 10 ^ 6 < 1 / 2 := by linarith
  have h2 : (A06.effBitrate a : ℚ) / 10 ^ 9 < 1 / 2 := by linarith
  linarith

theorem formatClass_le_two (a : A06.AudioInfo) : A06.formatClass a ≤ 2 := by
  rw [A06.formatClass]
  by_cases h : A06.isLossless a
  · rw [if_pos h]
  · rw [if_neg h]; omega

theorem one_le_formatClass (a : A06.AudioInfo) : 1 ≤ A06.formatClass a := by
  rw [A06.formatClass]
  by_cases h : A06.isLossless a
  · rw [if_pos h]; omega
  · rw [if_neg h]

/-- C1 (amended): under realistic attribute bounds the single summed score
orders files lexicographically by (format-class, bit depth, file size):
each of the three ranks dominates everything below it.  Sample rate and
bitrate enter only as sub-unit extras and never dominate file size. -/
theorem c1_score_lexicographic_by_format_bits_size (X Y : A06.AudioInfo)
    (hX : A06.BoundedInfo X) (hY : A06.BoundedInfo Y) :
    (A06.formatClass Y < A06.formatClass X →
      A06.calculateQualityScore Y < A06.calculateQualityScore X) ∧
    (A06.formatClass X = A06.formatClass Y → A06.effBits Y < A06.effBits X →
      A06.calculateQualityScore Y < A06.calculateQualityScore X) ∧
    (A06.formatClass X = A06.formatClass Y → A06.effBits X = A06.effBits Y →
      Y.fileSize < X.fileSize →
      A06.calculateQualityScore Y < A06.calculateQualityScore X) := by
  have heqX := calculateQualityScore_eq X
  have heqY := calculateQualityScore_eq Y
  have hexX0 := extras_nonneg X
  have hexY0 := extras_nonneg Y
  have hexX1 := extras_lt_one X hX
  have hexY1 := extras_lt_one Y hY
  have hbY : (A06.effBits Y : ℚ) ≤ 500 := by exact_mod_cast hY.1
  have hbX0 : (0 : ℚ) ≤ (A06.effBits X : ℚ) := by positivity
  have hsY : (Y.fileSize : ℚ) < 10 ^ 12 := by exact_mod_cast hY.2.1
  have hsX0 : (0 : ℚ) ≤ (X.fileSize : ℚ) := by positivity
  refine ⟨?_, ?_, ?_⟩
  · intro hf
    have hf' : (A06.formatClass Y : ℚ) + 1 ≤ (A06.formatClass X : ℚ) := by
      exact_mod_cast hf
    rw [heqX, heqY]
    nlinarith [hf']
  · intro hf hb
    have hf' : (A06.formatClass X : ℚ) = (A06.formatClass Y : ℚ) := by
      exact_mod_cast hf
    have hb' : (A06.effBits Y : ℚ) + 1 ≤ (A06.effBits X : ℚ) := by
      exact_mod_cast hb
    have hsY' : (Y.fileSize : ℚ) + 1 ≤ 10 ^ 12 := by
      exact_mod_cast hY.2.1
    rw [heqX, heqY, hf']
    nlinarith [hb', hsY']
  · intro hf hb hs
    have hf' : (A06.formatClass X : ℚ) = (A06.formatClass Y : ℚ) := by
      exact_mod_cast hf
    have hb' : (A06.effBits X : ℚ) = (A06.effBits Y : ℚ) := by
      exact_mod_cast hb
    have hs' : (Y.fileSize : ℚ) + 1 ≤ (X.fileSize : ℚ) := by
      exact_mod_cast hs
    rw [heqX, heqY, hf', hb']
    linarith

/-- C1 witness: a bounded lossless file outranks a bounded lossy one even
when the lossy file is far larger. -/
theorem c1_score_lexicographic_by_format_bits_size_witness :
    A06.BoundedInfo ⟨".flac", some 24, some 96000, some 0, 10⟩ ∧
    A06.BoundedInfo ⟨".mp3", some 16, some 48000, some 320000, 999999⟩ ∧
    A06.formatClass ⟨".mp3", some 16, some 48000, some 320000, 999999⟩
      < A06.formatClass ⟨".flac", some 24, some 96000, some 0, 10⟩ ∧
    A06.calculateQualityScore ⟨".mp3", some 16, some 48000, some 320000, 999999⟩
      < A06.calculateQualityScore ⟨".flac", some 24, some 96000, some 0, 10⟩ := by
  have hX : A06.BoundedInfo ⟨".flac", some 24, some 96000, some 0, 10⟩ := by
    decide
  have hY : A06.BoundedInfo
      ⟨".mp3", some 16, some 48000, some 320000, 999999⟩ := by decide
  have hf : A06.formatClass ⟨".mp3", some 16, some 48000, some 320000, 999999⟩
      < A06.formatClass ⟨".flac", some 24, some 96000, some 0, 10⟩ := by decide
  exact ⟨hX, hY, hf,
    (c1_score_lexicographic_by_format_bits_size
      ⟨".flac", some 24, some 96000, some 0, 10⟩
      ⟨".mp3", some 16, some 48000, some 320000, 999999⟩ hX hY).1 hf⟩

/-- C1 counterexample: the claimed rank order places sample rate above
file size, but in the summed score sample rate is a sub-unit extra: two
lossy 16-bit files where X has the strictly higher sample rate and Y
nothing above it in the claimed higher ranks still score X below Y,
because Y is bigger on disk. -/
theorem c1_sample_rate_rank_counterexample :
    A06.formatClass ⟨".mp3", some 16, some 96000, some 0, 1000⟩
      = A06.formatClass ⟨".mp3", some 16, some 44100, some 0, 2000000⟩ ∧
    A06.effBits ⟨".mp3", some 16, some 96000, some 0, 1000⟩
      = A06.effBits ⟨".mp3", some 16, some 44100, some 0, 2000000⟩ ∧
    A06.effSampleRate ⟨".mp3", some 16, some 44100, some 0, 2000000⟩
      < A06.effSampleRate ⟨".mp3", some 16, some 96000, some 0, 1000⟩ ∧
    A06.calculateQualityScore ⟨".mp3", some 16, some 96000, some 0, 1000⟩
      < A06.calculateQualityScore ⟨".mp3", some 16, some 44100, some 0, 2000000⟩ := by
  refine ⟨by decide, by decide, by decide, ?_⟩
  have hX : ¬ A06.isLossless ⟨".mp3", some 16, some 96000, some 0, 1000⟩ := by
    decide
  have hY : ¬ A06.isLossless
      ⟨".mp3", some 16, some 44100, some 0, 2000000⟩ := by decide
  rw [A06.calculateQualityScore, A06.calculateQualityScore, if_neg hX,
    if_neg hY]
  norm_num

/-- C4 (amended): whenever the block list is non-empty, the matcher's
returned score bounds the ratio of every blocking-index candidate that has
a catalog row, and the result is either the unchanged initial value
(none, 0, none) — which also happens when every candidate ratio is 0 —
or the first-seen candidate attaining the maximal, strictly positive
ratio, every earlier candidate being strictly worse. -/
theorem c4_matcher_first_seen_max (files : List A06.FileRow)
    (idx : A06.IndexTable) (fp : FP) (h : A06.getBlocks fp ≠ []) :
    (∀ p ∈ A06.lookupIndex idx (A06.getBlocks fp), ∀ row,
      A06.getFileRecord files p = some row →
      similarity fp row.fingerprint
        ≤ (A06.findLocalFuzzyMatch files idx fp).2.1) ∧
    (A06.findLocalFuzzyMatch files idx fp = (none, 0, none) ∨
      ∃ pre p post row,
        A06.lookupIndex idx (A06.getBlocks fp) = pre ++ p :: post ∧
        A06.getFileRecord files p = some row ∧
        (A06.findLocalFuzzyMatch files idx fp).1 = some p ∧
        (A06.findLocalFuzzyMatch files idx fp).2.1
          = similarity fp row.fingerprint ∧
        0 < (A06.findLocalFuzzyMatch files idx fp).2.1 ∧
        (∀ q ∈ pre, ∀ row', A06.getFileRecord files q = some row' →
          similarity fp row'.fingerprint
            < (A06.findLocalFuzzyMatch files idx fp).2.1)) := by
  have hspec := fuzzyFold_spec files fp (A06.lookupIndex idx (A06.getBlocks fp))
    (none, 0, none)
  rw [A06.findLocalFuzzyMatch, if_neg h]
  obtain ⟨-, h2, h3⟩ := hspec
  refine ⟨h2, ?_⟩
  rcases h3 with h | ⟨pre, p, post, row, hc, hr, h1, hsc, hpos, hpre⟩
  · exact Or.inl h
  · exact Or.inr ⟨pre, p, post, row, hc, hr, h1, hsc, hpos, hpre⟩

/-- C4 witness: a one-block fingerprint with its exact copy in the catalog
yields the candidate bound at the returned score 1. -/
theorem c4_matcher_first_seen_max_witness :
    A06.getBlocks [Char.ofNat 97] ≠ [] ∧
    (∀ p ∈ A06.lookupIndex [([Char.ofNat 97], "p")]
        (A06.getBlocks [Char.ofNat 97]), ∀ row,
      A06.getFileRecord [⟨"p", [Char.ofNat 97], 1, ".mp3", 5⟩] p = some row →
      similarity [Char.ofNat 97] row.fingerprint
        ≤ (A06.findLocalFuzzyMatch [⟨"p", [Char.ofNat 97], 1, ".mp3", 5⟩]
            [([Char.ofNat 97], "p")] [Char.ofNat 97]).2.1) := by
  have h : A06.getBlocks [Char.ofNat 97] ≠ [] := by decide
  exact ⟨h, (c4_matcher_first_seen_max
    [⟨"p", [Char.ofNat 97], 1, ".mp3", 5⟩] [([Char.ofNat 97], "p")]
    [Char.ofNat 97] h).1⟩

/-- C4 counterexample: the blocking index yields exactly one candidate for
the query cexA — the catalog path holding cexB, with which it shares a
16-character block — yet the matcher returns no best match at all: the
strict-improvement comparison never fires because the candidate's ratio is
0, so no candidate of maximal ratio is returned. -/
theorem c4_candidate_yet_none_counterexample :
    A06.lookupIndex (A06.updateIndex [] "old" cexB) (A06.getBlocks cexA)
      = ["old"] ∧
    (A06.findLocalFuzzyMatch [⟨"old", cexB, 1, ".mp3", 5⟩]
        (A06.updateIndex [] "old" cexB) cexA).1 = none := by
  have hlook : A06.lookupIndex (A06.updateIndex [] "old" cexB)
      (A06.getBlocks cexA) = ["old"] := by decide
  have hm : Difflib.matchesTotal cexA cexB = 0 := by decide
  have hlen : cexA.length + cexB.length = 512 := by decide
  have hsim : similarity cexA cexB = 0 := by
    rw [similarity, Difflib.ratio, hm, hlen]
    norm_num
  have hblocks : ¬ A06.getBlocks cexA = [] := by decide
  have hrec : A06.getFileRecord [⟨"old", cexB, 1, ".mp3", 5⟩] "old"
      = some ⟨"old", cexB, 1, ".mp3", 5⟩ := by
    rw [A06.getFileRecord]
    simp [List.find?]
  refine ⟨hlook, ?_⟩
  rw [A06.findLocalFuzzyMatch, if_neg hblocks, hlook, List.foldl_cons,
    List.foldl_nil]
  simp only [A06.fuzzyStep, hrec]
  rw [if_neg (by rw [hsim]; exact lt_irrefl 0)]

/-- C2: at or above the auto threshold the resolution is deterministic:
the outcome does not depend on the interactive prompt, no prompt is made,
and the decision is keep-new exactly when the new file's score strictly
exceeds the matched catalog file's score, otherwise keep-old. -/
theorem c2_auto_band_deterministic (p : String) (record quality : QualityRec)
    (matchScore : ℚ) (pr pr' : A06.DedupDecision)
    (h : A06.SIMILARITY_AUTO ≤ matchScore) :
    A06.handleLocalDeduplication (some (p, record)) matchScore quality pr
      = A06.handleLocalDeduplication (some (p, record)) matchScore quality pr' ∧
    (A06.handleLocalDeduplication (some (p, record)) matchScore quality
      pr).promptInvocations = 0 ∧
    (A06.handleLocalDeduplication (some (p, record)) matchScore quality
      pr).decision
      = some (if record.score < quality.score then A06.DedupDecision.keepNew
              else A06.DedupDecision.keepOld) ∧
    ((A06.handleLocalDeduplication (some (p, record)) matchScore quality
      pr).proceed = true ↔ record.score < quality.score) := by
  have hask : ¬ matchScore < A06.SIMILARITY_ASK := by
    rw [A06.SIMILARITY_ASK]
    rw [A06.SIMILARITY_AUTO] at h
    intro hc
    have : (85 : ℚ) / 100 ≤ 98 / 100 := by norm_num
    linarith
  simp only [A06.handleLocalDeduplication, if_neg hask, if_pos h]
  by_cases hq : record.score < quality.score
  · simp [hq]
  · simp [hq]

/-- C2 witness: a concrete auto-band upgrade resolves to keep-new with no
prompt. -/
theorem c2_auto_band_deterministic_witness :
    A06.SIMILARITY_AUTO ≤ (1 : ℚ) ∧
    (A06.handleLocalDeduplication
        (some ("old.mp3", ⟨500, ".mp3", 10⟩)) 1 ⟨5000, ".flac", 20⟩
        A06.DedupDecision.skip).decision = some A06.DedupDecision.keepNew ∧
    (A06.handleLocalDeduplication
        (some ("old.mp3", ⟨500, ".mp3", 10⟩)) 1 ⟨5000, ".flac", 20⟩
        A06.DedupDecision.skip).promptInvocations = 0 := by
  have haut : A06.SIMILARITY_AUTO ≤ (1 : ℚ) := by
    rw [A06.SIMILARITY_AUTO]; norm_num
  have h := c2_auto_band_deterministic "old.mp3" ⟨500, ".mp3", 10⟩
    ⟨5000, ".flac", 20⟩ 1 A06.DedupDecision.skip A06.DedupDecision.skip haut
  refine ⟨haut, ?_, h.2.1⟩
  rw [h.2.2.1, if_pos (by norm_num : (500 : ℚ) < 5000)]

/-- C7 (amended): in the ask band the engine consults the prompt exactly
once and acts strictly on its return value; the A06 prompt accepts exactly
the three lowercased answers n (keep-new), o (keep-old), s (skip) — quit
is not among them. -/
theorem c7_ask_band_prompt (t : String) (p : String)
    (record quality : QualityRec) (sim : ℚ) (pr : A06.DedupDecision)
    (h1 : A06.SIMILARITY_ASK ≤ sim) (h2 : sim < A06.SIMILARITY_AUTO) :
    (A06.promptDedupResolution [t] ≠ none ↔
      (A06.lowerStr t = "n" ∨ A06.lowerStr t = "o" ∨ A06.lowerStr t = "s")) ∧
    (A06.handleLocalDeduplication (some (p, record)) sim quality
      pr).promptInvocations = 1 ∧
    (A06.handleLocalDeduplication (some (p, record)) sim quality
      pr).decision = some pr ∧
    ((A06.handleLocalDeduplication (some (p, record)) sim quality
      pr).proceed = true ↔ pr = A06.DedupDecision.keepNew) := by
  have hask : ¬ sim < A06.SIMILARITY_ASK := not_lt.mpr h1
  have haut : ¬ A06.SIMILARITY_AUTO ≤ sim := not_le.mpr h2
  refine ⟨?_, ?_⟩
  · rw [A06.promptDedupResolution]
    by_cases hn : A06.lowerStr t = "n"
    · simp [hn]
    · by_cases ho : A06.lowerStr t = "o"
      · simp [hn, ho]
      · by_cases hs : A06.lowerStr t = "s"
        · simp [hn, ho, hs]
        · simp [hn, ho, hs, A06.promptDedupResolution]
  · simp only [A06.handleLocalDeduplication, if_neg hask, if_neg haut]
    cases pr <;> simp

/-- C7 witness: a concrete ask-band similarity of 0.90 invokes the prompt
once and follows its keep-old answer. -/
theorem c7_ask_band_prompt_witness :
    (A06.SIMILARITY_ASK ≤ (90 : ℚ) / 100 ∧
      (90 : ℚ) / 100 < A06.SIMILARITY_AUTO) ∧
    (A06.promptDedupResolution ["o"] ≠ none ↔
      (A06.lowerStr "o" = "n" ∨ A06.lowerStr "o" = "o"
        ∨ A06.lowerStr "o" = "s")) ∧
    (A06.handleLocalDeduplication (some ("old.mp3", ⟨500, ".mp3", 10⟩))
        ((90 : ℚ) / 100) ⟨400, ".mp3", 9⟩
        A06.DedupDecision.keepOld).promptInvocations = 1 ∧
    (A06.handleLocalDeduplication (some ("old.mp3", ⟨500, ".mp3", 10⟩))
        ((90 : ℚ) / 100) ⟨400, ".mp3", 9⟩
        A06.DedupDecision.keepOld).decision
      = some A06.DedupDecision.keepOld := by
  have hb : A06.SIMILARITY_ASK ≤ (90 : ℚ) / 100 ∧
      (90 : ℚ) / 100 < A06.SIMILARITY_AUTO := by
    rw [A06.SIMILARITY_ASK, A06.SIMILARITY_AUTO]
    norm_num
  have h := c7_ask_band_prompt "o" "old.mp3" ⟨500, ".mp3", 10⟩ ⟨400, ".mp3", 9⟩
    ((90 : ℚ) / 100) A06.DedupDecision.keepOld hb.1 hb.2
  exact ⟨hb, h.1, h.2.1, h.2.2.1⟩

/-- C7 counterexample: the A06 prompt does not accept quit, in either
spelling; the sole accepted answers map to keep-new, keep-old, skip. -/
theorem c7_quit_not_accepted_counterexample :
    A06.promptDedupResolution ["q"] = none ∧
    A06.promptDedupResolution ["quit"] = none ∧
    A06.promptDedupResolution ["n"] = some A06.DedupDecision.keepNew ∧
    A06.promptDedupResolution ["o"] = some A06.DedupDecision.keepOld ∧
    A06.promptDedupResolution ["s"] = some A06.DedupDecision.skip := by
  refine ⟨?_, ?_, ?_, ?_, ?_⟩ <;> decide

/-- C6: on a keep-old resolution (manual or automatic) that reaches
move_to_dups with the stats dict, the new file is relocated into the
duplicates folder under a collision-safe name, a catalog row keyed by the
quarantine path is written with processed = true and isDuplicate = true,
and every blocking-index row pointing at the old path is dropped. -/
theorem c6_keep_old_quarantines_and_marks (dupFolder : String)
    (st : Refactored.RState) (filePath : Refactored.PathT) (fp : Option FP)
    (stt : Refactored.Stats) (hmem : filePath ∈ st.fs) :
    (Refactored.getSafePath st.fs ⟨dupFolder, filePath.name⟩).dir
      = dupFolder ∧
    Refactored.getSafePath st.fs ⟨dupFolder, filePath.name⟩
      ∈ (Refactored.moveToDups dupFolder false st filePath fp
          (some stt)).fs ∧
    (∃ r ∈ (Refactored.moveToDups dupFolder false st filePath fp
        (some stt)).files,
      r.path = Refactored.getSafePath st.fs ⟨dupFolder, filePath.name⟩ ∧
      r.fingerprint = fp ∧ r.processed = true ∧ r.isDuplicate = true) ∧
    (∀ e ∈ (Refactored.moveToDups dupFolder false st filePath fp
        (some stt)).index, e.2 ≠ filePath) := by
  have hcond : ¬ (false : Bool) = true ∧ filePath ∈ st.fs := by
    exact ⟨by simp, hmem⟩
  constructor
  · exact Refactored.getSafePath_dir st.fs ⟨dupFolder, filePath.name⟩
  rw [Refactored.moveToDups]
  simp only [if_pos hcond]
  refine ⟨List.mem_cons_self _ _, ?_, ?_⟩
  · refine ⟨_, List.mem_append_right _ (List.mem_singleton_self _), ?_⟩
    exact ⟨rfl, rfl, rfl, rfl⟩
  · intro e he
    have := List.of_mem_filter he
    simpa using this

/-- C6 witness: a concrete one-file library quarantines its duplicate. -/
theorem c6_keep_old_quarantines_and_marks_witness :
    (⟨"lib", "song.mp3"⟩ : Refactored.PathT) ∈
      ([⟨"lib", "song.mp3"⟩] : List Refactored.PathT) ∧
    (Refactored.getSafePath [⟨"lib", "song.mp3"⟩]
        ⟨"dups", "song.mp3"⟩).dir = "dups" ∧
    (∃ r ∈ (Refactored.moveToDups "dups" false
        ⟨[⟨"lib", "song.mp3"⟩], [], [(['a'], ⟨"lib", "song.mp3"⟩)]⟩
        ⟨"lib", "song.mp3"⟩ (some ['a'])
        (some ⟨500, ".mp3", 320, 44100, 16, 9, 0⟩)).files,
      r.path = Refactored.getSafePath [⟨"lib", "song.mp3"⟩]
          ⟨"dups", "song.mp3"⟩ ∧
      r.fingerprint = some ['a'] ∧ r.processed = true ∧
      r.isDuplicate = true) ∧
    (∀ e ∈ (Refactored.moveToDups "dups" false
        ⟨[⟨"lib", "song.mp3"⟩], [], [(['a'], ⟨"lib", "song.mp3"⟩)]⟩
        ⟨"lib", "song.mp3"⟩ (some ['a'])
        (some ⟨500, ".mp3", 320, 44100, 16, 9, 0⟩)).index,
      e.2 ≠ (⟨"lib", "song.mp3"⟩ : Refactored.PathT)) := by
  have hmem : (⟨"lib", "song.mp3"⟩ : Refactored.PathT) ∈
      ([⟨"lib", "song.mp3"⟩] : List Refactored.PathT) := by decide
  have h := c6_keep_old_quarantines_and_marks "dups"
    ⟨[⟨"lib", "song.mp3"⟩], [], [(['a'], ⟨"lib", "song.mp3"⟩)]⟩
    ⟨"lib", "song.mp3"⟩ (some ['a']) ⟨500, ".mp3", 320, 44100, 16, 9, 0⟩
    hmem
  exact ⟨hmem, h.1, h.2.2.1, h.2.2.2⟩

/-- C3 counterexample: SequenceMatcher.ratio is not symmetric; on the pair
ab and bacb the two orders give 2/3 and 1/3. -/
theorem c3_symmetry_counterexample :
    similarity ['a', 'b'] ['b', 'a', 'c', 'b']
      ≠ similarity ['b', 'a', 'c', 'b'] ['a', 'b'] := by
  have h1 : Difflib.matchesTotal ['a', 'b'] ['b', 'a', 'c', 'b'] = 2 := by
    decide
  have h2 : Difflib.matchesTotal ['b', 'a', 'c', 'b'] ['a', 'b'] = 1 := by
    decide
  rw [similarity, similarity, Difflib.ratio, Difflib.ratio, h1, h2]
  norm_num

end MusicDupes
